import Mathlib

/-!
Verification of the model-graph engine (package `expr`, file `model.go`):
identity assignment, name-scoped uniqueness validation, path-based
cross-reference resolution, duplicate-definition merging and
implied-relationship inference.

The Go code mutates a process-wide registry of elements and relationships.
The embedding represents the element tree directly (people, systems with
containers and components, deployment nodes with container instances) and
keeps the relationship registry as an explicit list in creation order.
Registry lookups become searches by identifier over the tree; Go panics
(nil dereferences, failed type assertions, the explicit `panic` in
`Parent`) become an explicit error value `GoPanic`.
-/

set_option maxHeartbeats 1000000

namespace ModelExpr

/-- Runtime failures of the Go code: nil-pointer dereferences, failed type
assertions, calls through a nil function or interface value, and the
explicit `panic` in `Parent`.  `outOfFuel` is an artifact of the bounded
unfolding of `addMissingRelationships` and never occurs at the fuel used
by `Finalize` on hierarchy-consistent models. -/
inductive GoPanic where
  | nilDestination
  | nilScopeCall
  | nilInterfaceAssertion
  | badContainerAssertion
  | unknownElementType
  | nilFunctionCall
  | outOfFuel
deriving DecidableEq, Repr

/-- Modelled from the spec: a deferred-initialization function (`DSLFunc`).
The body of a function is opaque Go code; we model it by the trace of
abstract actions it performs.  `leaf` is a directly declared function,
`seqCall old new` is the closure `func() { olddsl(); p.DSLFunc() }` built by
the merge engine when the incoming function is non-nil, and `seqCallNil old`
is that closure when the incoming `DSLFunc` is nil (running it calls a nil
function, a Go panic). -/
inductive DSLFn where
  | leaf (actions : List Nat)
  | seqCall (first next : DSLFn)
  | seqCallNil (first : DSLFn)
deriving DecidableEq, Repr

/-- Running a deferred-initialization function yields the trace of actions,
or the panic raised by calling a nil function. -/
def DSLFn.run : DSLFn → Except GoPanic (List Nat)
  | .leaf as => .ok as
  | .seqCall f g => do
      let a ← f.run
      let b ← g.run
      .ok (a ++ b)
  | .seqCallNil f => do
      let _ ← f.run
      .error .nilFunctionCall

/-- Modelled from the spec: a Relationship is a directed edge with its own
identity, an always-resolved source, a destination that is either a concrete
element reference (`some id`) or still the pending textual path
(`destination = none`), description, technology, tags, and the optional
back-reference to the originating relationship set on derived copies. -/
structure Relationship where
  id : Nat
  sourceID : Nat
  destination : Option Nat
  destinationPath : String
  description : String
  technology : String
  tags : List String
  linkedRelationshipID : Option Nat
deriving DecidableEq, Repr

/-- Modelled from the spec: the base attributes shared by every element
kind.  Outgoing relationships are stored as the ordered list of
relationship identifiers (the objects themselves live in the model's
relationship registry). -/
structure ElemData where
  id : Nat
  name : String
  description : String
  technology : String
  tags : List String
  relationships : List Nat
deriving DecidableEq, Repr

/-- Modelled from the spec: a validation error ties a message to the
offending entity (element or relationship identifier).  The aggregate
returned by `Validate` is a list of these. -/
structure VErr where
  subjectID : Nat
  message : String
deriving DecidableEq, Repr

/-- Modelled from the spec: a Person (top-level element kind) with its
optional deferred-initialization function. -/
structure Person where
  data : ElemData
  dslFunc : Option DSLFn
deriving DecidableEq, Repr

/-- Modelled from the spec: a Component, child of a Container. -/
structure Component where
  data : ElemData
deriving DecidableEq, Repr

/-- Modelled from the spec: a Container, child of a SoftwareSystem, owning
its Components. -/
structure Container where
  data : ElemData
  components : List Component
deriving DecidableEq, Repr

/-- Modelled from the spec: a SoftwareSystem (top-level element kind)
owning its Containers, with its optional deferred-initialization
function. -/
structure SoftwareSystem where
  data : ElemData
  dslFunc : Option DSLFn
  containers : List Container
deriving DecidableEq, Repr

/-- Modelled from the spec: a ContainerInstance is a deployed occurrence of
a Container; `containerID` is the identifier of the instantiated
Container. -/
structure ContainerInstance where
  data : ElemData
  containerID : Nat
deriving DecidableEq, Repr

/-- Modelled from the spec: a DeploymentNode owning container instances and
infrastructure nodes, with its optional deferred-initialization function.
Nested child deployment nodes are not modelled; no claim concerns them and
`model.go` never traverses them. -/
structure DeploymentNode where
  data : ElemData
  dslFunc : Option DSLFn
  instances : List ContainerInstance
  infrastructureNodes : List ElemData
deriving DecidableEq, Repr

/-- The Model, root of the graph (`Model` in `model.go`), extended with the
relationship registry (`rels`, in creation order) and the identity
counter (`nextID`) of the spec's Identity Registry, which in Go live in
process-wide state. -/
structure Model where
  enterprise : String
  people : List Person
  systems : List SoftwareSystem
  deploymentNodes : List DeploymentNode
  addImpliedRelationships : Bool
  rels : List Relationship
  nextID : Nat
deriving DecidableEq, Repr

/-- Mirrors `Model.Person`: the first person with the given name, if any. -/
def Model.person (m : Model) (name : String) : Option Person :=
  m.people.find? (fun p => p.data.name == name)

/-- Mirrors `Model.SoftwareSystem`: the first software system with the given
name, if any. -/
def Model.softwareSystem (m : Model) (name : String) : Option SoftwareSystem :=
  m.systems.find? (fun s => s.data.name == name)

/-- Mirrors `Model.DeploymentNode`: the first deployment node with the given
name, if any. -/
def Model.deploymentNode (m : Model) (name : String) : Option DeploymentNode :=
  m.deploymentNodes.find? (fun d => d.data.name == name)

/-- Modelled from the spec: `SoftwareSystem.Container(name)` returns the
system's child container with the given name, if any. -/
def SoftwareSystem.container (s : SoftwareSystem) (name : String) : Option Container :=
  s.containers.find? (fun c => c.data.name == name)

/-- Modelled from the spec: `Container.Component(name)` returns the
container's child component with the given name, if any. -/
def Container.component (c : Container) (name : String) : Option Component :=
  c.components.find? (fun cm => cm.data.name == name)

/-- Registry lookup for a relationship by identifier. -/
def Model.getRel (m : Model) (rid : Nat) : Option Relationship :=
  m.rels.find? (fun r => r.id == rid)

/-- Modelled from the spec: the Registry entry for an element identifier,
together with the structural parents recorded by the Entity Hierarchy's
back-references (a Container knows its System, a Component its Container,
and transitively that Container's System). -/
inductive Holder where
  | person (p : Person)
  | softwareSystem (s : SoftwareSystem)
  | container (c : Container) (parentSystem : SoftwareSystem)
  | component (c : Component) (parentContainer : Container) (parentSystem : SoftwareSystem)
  | deploymentNode (d : DeploymentNode)
  | containerInstance (ci : ContainerInstance)
  | infrastructureNode (e : ElemData)
deriving DecidableEq, Repr

/-- The registry entries contributed by one system: the system itself,
then each container followed by its components. -/
def systemHolders (s : SoftwareSystem) : List Holder :=
  Holder.softwareSystem s
    :: (s.containers.map (fun c =>
          Holder.container c s :: c.components.map (fun cm => Holder.component cm c s))).flatten

/-- The registry entries contributed by one deployment node: the node,
its container instances and its infrastructure nodes. -/
def nodeHolders (d : DeploymentNode) : List Holder :=
  Holder.deploymentNode d
    :: (d.instances.map Holder.containerInstance
        ++ d.infrastructureNodes.map Holder.infrastructureNode)

/-- All registry entries of the model in declaration order: people, then
systems (each system followed by its containers, each container by its
components), then deployment nodes (each node followed by its instances
and infrastructure nodes). -/
def Model.allHolders (m : Model) : List Holder :=
  m.people.map Holder.person
    ++ (m.systems.map systemHolders).flatten
    ++ (m.deploymentNodes.map nodeHolders).flatten

/-- The element data underlying a holder (`GetElement`). -/
def Holder.data : Holder → ElemData
  | .person p => p.data
  | .softwareSystem s => s.data
  | .container c _ => c.data
  | .component c _ _ => c.data
  | .deploymentNode d => d.data
  | .containerInstance ci => ci.data
  | .infrastructureNode e => e

/-- Modelled from the spec: `Registry[id]` — the entity with the given
identifier.  Identifiers are unique by construction in Go; the model
searches the tree in declaration order. -/
def Model.lookupHolder (m : Model) (id : Nat) : Option Holder :=
  m.allHolders.find? (fun h => h.data.id == id)

/-- The element data registered under an identifier. -/
def Model.getElemData (m : Model) (id : Nat) : Option ElemData :=
  (m.lookupHolder id).map Holder.data

/-- The outgoing relationship identifiers of the element registered under
`id` (empty when no such element exists; in Go the element pointer is
always valid). -/
def Model.elemRelIDs (m : Model) (id : Nat) : List Nat :=
  ((m.getElemData id).map ElemData.relationships).getD []

/-- Scopes accepted by `FindElement`: in Go the scope is an `ElementHolder`
interface value.  Only SoftwareSystem and Container scopes trigger
scope-relative lookup; any other non-nil holder only contributes its name
to error messages. -/
inductive Scope where
  | softwareSystem (s : SoftwareSystem)
  | container (c : Container)
  | other (e : ElemData)
deriving DecidableEq, Repr

/-- The scope's element name (`scope.GetElement().Name`). -/
def Scope.scopeName : Scope → String
  | .softwareSystem s => s.data.name
  | .container c => c.data.name
  | .other e => e.name

/-- An element found by `FindElement`. -/
inductive Found where
  | person (p : Person)
  | system (s : SoftwareSystem)
  | container (c : Container)
  | component (c : Component)
deriving DecidableEq, Repr

/-- Identifier of the found element (`eh.GetElement().ID`). -/
def Found.elemID : Found → Nat
  | .person p => p.data.id
  | .system s => s.data.id
  | .container c => c.data.id
  | .component c => c.data.id

/-- Result of `FindElement`: a found element, a returned error value with
the exact message built by `fmt.Errorf`, or a Go panic. -/
inductive FindRes where
  | found (eh : Found)
  | fail (msg : String)
  | panicked
deriving DecidableEq, Repr

/-- Go `%q` of a plain name: the name surrounded by double quotes (none of
the names involved need escaping). -/
def quo (s : String) : String := "\"" ++ s ++ "\""

/-- Splitting a list of characters at every `/`, mirroring Go
`strings.Split(path, "/")` (always at least one piece; empty pieces kept). -/
def splitSlash : List Char → List (List Char)
  | [] => [[]]
  | c :: rest =>
    let r := splitSlash rest
    if c = '/' then [] :: r
    else
      match r with
      | h :: t => (c :: h) :: t
      | [] => [[c]]

/-- Mirrors `strings.Split(path, "/")`. -/
def splitPath (s : String) : List String :=
  (splitSlash s.toList).map (fun cs => String.mk cs)

/-- The scope-relative half of the one-segment case of `FindElement`: a
SoftwareSystem scope looks the name up among its containers, a Container
scope among its components, anything else yields nothing. -/
def scopeChild (scope : Option Scope) (path : String) : Option Found :=
  match scope with
  | some (.softwareSystem s) => (s.container path).map Found.container
  | some (.container c) => (c.component path).map Found.component
  | _ => none

/-- Mirrors `Model.FindElement(scope, path)`.  The three error messages are
those of the source; `panicked` marks the nil-interface method call
`scope.GetElement()` reached in the two-segment failure branch when the
scope is nil. -/
def Model.findElement (m : Model) (scope : Option Scope) (path : String) : FindRes :=
  match splitPath path with
  | [_] =>
    match scopeChild scope path with
    | some e => .found e
    | none =>
      match m.person path with
      | some p => .found (.person p)
      | none =>
        match m.softwareSystem path with
        | some sys => .found (.system sys)
        | none =>
          match scope with
          | none =>
              .fail (quo path ++ " does not match the name of a person, a software system or the path to container or component in scope")
          | some sc =>
              .fail (quo path ++ " does not match the name of a person, a software system or an element in the scope of " ++ quo sc.scopeName)
  | [e0, e1] =>
    let eh : Option Found :=
      match scope with
      | some (.softwareSystem s) =>
        match s.container e0 with
        | some c => (c.component e1).map Found.component
        | none => none
      | _ => none
    match eh with
    | some e => .found e
    | none =>
      let eh2 : Option Found :=
        match m.softwareSystem e0 with
        | some s => (s.container e1).map Found.container
        | none => none
      match eh2 with
      | some e => .found e
      | none =>
        match scope with
        | none => .panicked
        | some sc =>
            .fail (quo path ++ " does not match the name of a software system and container or the name of a container and component in the scope of " ++ quo sc.scopeName)
  | [e0, e1, e2] =>
    let eh : Option Found :=
      match m.softwareSystem e0 with
      | some s =>
        match s.container e1 with
        | some c => (c.component e2).map Found.component
        | none => none
      | none => none
    match eh with
    | some e => .found e
    | none => .fail (quo path ++ " does not match the name of a software system, container and component")
  | _ => .fail "too many colons in path"

/-- The message attached to every duplicate-name validation error. -/
def nameInUse : String := "name already in use"

/-- One uniqueness scan: walk `(id, name)` pairs, record an error for every
item whose name is already in the accumulated name set, then add the name
to the set.  Mirrors the check-then-insert loops of `Model.Validate`. -/
def scanErrs (items : List (Nat × String)) (known : List String) : List VErr :=
  match items with
  | [] => []
  | it :: rest =>
    (if known.contains it.2 then [⟨it.1, nameInUse⟩] else []) ++ scanErrs rest (known ++ [it.2])

/-- The uniqueness scan of one container's components (fresh name set). -/
def componentsErrs (comps : List Component) : List VErr :=
  scanErrs (comps.map fun cm => (cm.data.id, cm.data.name)) []

/-- The uniqueness scan of a system's containers (fresh name set), each
container followed by the scan of its own components. -/
def containersErrs : List Container → List String → List VErr
  | [], _ => []
  | c :: rest, known =>
    (if known.contains c.data.name then [⟨c.data.id, nameInUse⟩] else [])
      ++ componentsErrs c.components
      ++ containersErrs rest (known ++ [c.data.name])

/-- The uniqueness scan of the systems, continuing the top-level name set
already filled by the people scan; each system is followed by the scan of
its containers. -/
def systemsErrs : List SoftwareSystem → List String → List VErr
  | [], _ => []
  | s :: rest, known =>
    (if known.contains s.data.name then [⟨s.data.id, nameInUse⟩] else [])
      ++ containersErrs s.containers []
      ++ systemsErrs rest (known ++ [s.data.name])

/-- Mirrors the uniqueness half of `Model.Validate` (lines 40-68): people
and systems share one top-level name set; each system's containers and
each container's components get fresh sets; every violation is recorded
and scanning continues. -/
def Model.uniqErrors (m : Model) : List VErr :=
  scanErrs (m.people.map fun p => (p.data.id, p.data.name)) []
    ++ systemsErrs m.systems (m.people.map fun p => p.data.name)

/-- Mirrors `Parent`: nil for Person and SoftwareSystem, the owning System
for a Container, the owning Container for a Component, and the explicit
`panic` for every other element kind. -/
def Holder.parentScope : Holder → Except GoPanic (Option Scope)
  | .person _ => .ok none
  | .softwareSystem _ => .ok none
  | .container _ parentS => .ok (some (.softwareSystem parentS))
  | .component _ parentC _ => .ok (some (.container parentC))
  | _ => .error .unknownElementType

/-- Resolution of a single relationship, mirroring the body of the
`IterateRelationships` callback in `Model.Validate` (lines 71-83): an
already-resolved relationship is left alone; otherwise the source's
registry entry is fetched (a nil entry makes the `.(ElementHolder)`
assertion panic), `Parent` gives the scope, and `FindElement` either binds
the destination or contributes a validation error carrying the resolver's
message. -/
def Model.resolveOne (m : Model) (r : Relationship) :
    Except GoPanic (Option VErr × Relationship) :=
  if r.destination.isSome then .ok (none, r)
  else
    match m.lookupHolder r.sourceID with
    | none => .error .nilInterfaceAssertion
    | some h => do
        let sc ← h.parentScope
        match m.findElement sc r.destinationPath with
        | .found eh => .ok (none, { r with destination := some eh.elemID })
        | .fail msg => .ok (some ⟨r.id, msg⟩, r)
        | .panicked => .error .nilScopeCall

/-- The resolution pass over the relationship registry, visiting positions
in registration order and updating each relationship in place. -/
def Model.resolveIdxs : Model → List Nat → List VErr → Except GoPanic (List VErr × Model)
  | m, [], errs => .ok (errs, m)
  | m, i :: rest, errs =>
    match m.rels[i]? with
    | none => Model.resolveIdxs m rest errs
    | some r =>
      match m.resolveOne r with
      | .error p => .error p
      | .ok (oe, r') => Model.resolveIdxs { m with rels := m.rels.set i r' } rest (errs ++ oe.toList)

/-- Modelled from the spec: `IterateRelationships` visits every relationship
in the graph; the registry assigns identifiers monotonically, so the pass
visits `rels` in registration order. -/
def Model.resolvePass (m : Model) : Except GoPanic (List VErr × Model) :=
  Model.resolveIdxs m (List.range m.rels.length) []

/-- Mirrors `Model.Validate`: the uniqueness scan followed by the deferred
relationship resolution, all errors accumulated into one aggregate. -/
def Model.validate (m : Model) : Except GoPanic (List VErr × Model) :=
  match m.resolvePass with
  | .error p => .error p
  | .ok (re, m') => .ok (m.uniqErrors ++ re, m')

/-- Mirrors the merge branch of `Model.AddPerson`: overwrite the
description only if the incoming one is non-empty; if the existing deferred
function is non-nil, replace it by the closure running the old function and
then the incoming one (which may be nil). -/
def Person.merge (existing p : Person) : Person :=
  let e1 :=
    if p.data.description == "" then existing
    else { existing with data := { existing.data with description := p.data.description } }
  match e1.dslFunc with
  | some old =>
    { e1 with
      dslFunc := some (match p.dslFunc with
        | some g => .seqCall old g
        | none => .seqCallNil old) }
  | none => e1

/-- Merge branch of `Model.AddSystem`, same shape as `Person.merge`. -/
def SoftwareSystem.merge (existing s : SoftwareSystem) : SoftwareSystem :=
  let e1 :=
    if s.data.description == "" then existing
    else { existing with data := { existing.data with description := s.data.description } }
  match e1.dslFunc with
  | some old =>
    { e1 with
      dslFunc := some (match s.dslFunc with
        | some g => .seqCall old g
        | none => .seqCallNil old) }
  | none => e1

/-- Merge branch of `Model.AddDeploymentNode`: like the others but also
overwriting the technology when the incoming one is non-empty. -/
def DeploymentNode.merge (existing d : DeploymentNode) : DeploymentNode :=
  let e1 :=
    if d.data.description == "" then existing
    else { existing with data := { existing.data with description := d.data.description } }
  let e2 :=
    if d.data.technology == "" then e1
    else { e1 with data := { e1.data with technology := d.data.technology } }
  match e2.dslFunc with
  | some old =>
    { e2 with
      dslFunc := some (match d.dslFunc with
        | some g => .seqCall old g
        | none => .seqCallNil old) }
  | none => e2

/-- Merging into the first list entry with the incoming name, in place;
`none` when no entry has that name. -/
def addPersonAux : List Person → Person → Option (List Person × Person)
  | [], _ => none
  | q :: qs, p =>
    if q.data.name == p.data.name then
      let q' := q.merge p
      some (q' :: qs, q')
    else
      match addPersonAux qs p with
      | some (qs', r) => some (q :: qs', r)
      | none => none

/-- Mirrors `Model.AddPerson`: on a new name, `Identify` the person (assign
the next identifier), append, and return it; on an existing name, merge
into the existing person and return it — the incoming identity is never
registered. -/
def Model.addPerson (m : Model) (p : Person) : Model × Person :=
  match addPersonAux m.people p with
  | none =>
    let p' := { p with data := { p.data with id := m.nextID } }
    ({ m with people := m.people ++ [p'], nextID := m.nextID + 1 }, p')
  | some (ps, r) => ({ m with people := ps }, r)

/-- In-place merge helper for `Model.addSystem`. -/
def addSystemAux : List SoftwareSystem → SoftwareSystem → Option (List SoftwareSystem × SoftwareSystem)
  | [], _ => none
  | q :: qs, s =>
    if q.data.name == s.data.name then
      let q' := q.merge s
      some (q' :: qs, q')
    else
      match addSystemAux qs s with
      | some (qs', r) => some (q :: qs', r)
      | none => none

/-- Mirrors `Model.AddSystem`. -/
def Model.addSystem (m : Model) (s : SoftwareSystem) : Model × SoftwareSystem :=
  match addSystemAux m.systems s with
  | none =>
    let s' := { s with data := { s.data with id := m.nextID } }
    ({ m with systems := m.systems ++ [s'], nextID := m.nextID + 1 }, s')
  | some (ss, r) => ({ m with systems := ss }, r)

/-- In-place merge helper for `Model.addDeploymentNode`. -/
def addDeploymentNodeAux : List DeploymentNode → DeploymentNode → Option (List DeploymentNode × DeploymentNode)
  | [], _ => none
  | q :: qs, d =>
    if q.data.name == d.data.name then
      let q' := q.merge d
      some (q' :: qs, q')
    else
      match addDeploymentNodeAux qs d with
      | some (qs', r) => some (q :: qs', r)
      | none => none

/-- Mirrors `Model.AddDeploymentNode`. -/
def Model.addDeploymentNode (m : Model) (d : DeploymentNode) : Model × DeploymentNode :=
  match addDeploymentNodeAux m.deploymentNodes d with
  | none =>
    let d' := { d with data := { d.data with id := m.nextID } }
    ({ m with deploymentNodes := m.deploymentNodes ++ [d'], nextID := m.nextID + 1 }, d')
  | some (ds, r) => ({ m with deploymentNodes := ds }, r)

/-- Modelled from the spec: `Relationship.Dup(src, dest)` creates a fresh
relationship between the given elements carrying the original's
description, technology and tags; the registry assigns it the next
identifier. -/
def Relationship.dup (ex : Relationship) (srcID destID newID : Nat) : Relationship :=
  { id := newID, sourceID := srcID, destination := some destID,
    destinationPath := ex.destinationPath, description := ex.description,
    technology := ex.technology, tags := ex.tags, linkedRelationshipID := none }

/-- Modelled from the spec: `Identify` on a freshly created relationship —
record it in the registry and advance the identity counter. -/
def Model.registerRel (m : Model) (r : Relationship) : Model :=
  { m with rels := m.rels ++ [r], nextID := m.nextID + 1 }

/-- Appending an outgoing relationship identifier to the element data. -/
def ElemData.addRel (e : ElemData) (rid : Nat) : ElemData :=
  { e with relationships := e.relationships ++ [rid] }

/-- Updating the element data of a person. -/
def Person.mapData (f : ElemData → ElemData) (p : Person) : Person :=
  { p with data := f p.data }

/-- Updating the element data of a component. -/
def Component.mapData (f : ElemData → ElemData) (c : Component) : Component :=
  { c with data := f c.data }

/-- Updating the element data of a container and of all its components. -/
def Container.mapData (f : ElemData → ElemData) (c : Container) : Container :=
  { c with data := f c.data, components := c.components.map (Component.mapData f) }

/-- Updating the element data of a system and of all its containers and
components. -/
def SoftwareSystem.mapData (f : ElemData → ElemData) (s : SoftwareSystem) : SoftwareSystem :=
  { s with data := f s.data, containers := s.containers.map (Container.mapData f) }

/-- Updating the element data of a container instance. -/
def ContainerInstance.mapData (f : ElemData → ElemData) (ci : ContainerInstance) : ContainerInstance :=
  { ci with data := f ci.data }

/-- Updating the element data of a deployment node and of everything it
owns. -/
def DeploymentNode.mapData (f : ElemData → ElemData) (d : DeploymentNode) : DeploymentNode :=
  { d with
    data := f d.data,
    instances := d.instances.map (ContainerInstance.mapData f),
    infrastructureNodes := d.infrastructureNodes.map f }

/-- Applying an element-data update to every element of the model. -/
def Model.mapData (m : Model) (f : ElemData → ElemData) : Model :=
  { m with
    people := m.people.map (Person.mapData f),
    systems := m.systems.map (SoftwareSystem.mapData f),
    deploymentNodes := m.deploymentNodes.map (DeploymentNode.mapData f) }

/-- Mutation `elem.Relationships = append(elem.Relationships, r)` on the
element registered under `eid`, wherever it lives in the tree. -/
def Model.addRelToElem (m : Model) (eid rid : Nat) : Model :=
  m.mapData (fun e => if e.id == eid then e.addRel rid else e)

/-- Modelled from the spec: the container instances visited by `Iterate`,
in declaration order. -/
def Model.allInstances (m : Model) : List ContainerInstance :=
  (m.deploymentNodes.map (fun d => d.instances)).flatten

/-- The registry entry under `id` seen through the `.(*Container)` type
assertion: `some` exactly when the entry is a Container. -/
def Model.containerAt (m : Model) (id : Nat) : Option Container :=
  match m.lookupHolder id with
  | some (.container c _) => some c
  | _ => none

/-- The registry entry under `id` seen as a ContainerInstance. -/
def Model.instanceAt (m : Model) (id : Nat) : Option ContainerInstance :=
  match m.lookupHolder id with
  | some (.containerInstance ci) => some ci
  | _ => none

/-- Mirroring one container relationship onto a container instance
(`Model.Finalize` lines 94-110): dereferencing a nil destination panics; a
destination that is not a Container is skipped (`ok` guard); otherwise, for
every container instance of the destination container, a derived
relationship is created from the instance's element, its origin
back-reference set to the original, and appended to the instance's
relationships. -/
def Model.mirrorRel (m : Model) (ciElemID : Nat) (r : Relationship) : Except GoPanic Model :=
  match r.destination with
  | none => .error .nilDestination
  | some destID =>
    match m.containerAt destID with
    | none => .ok m
    | some dc =>
      .ok (m.allInstances.foldl
        (fun acc eci =>
          if eci.containerID == dc.data.id then
            let rc := { r.dup ciElemID eci.data.id acc.nextID with linkedRelationshipID := some r.id }
            (acc.registerRel rc).addRelToElem ciElemID rc.id
          else acc)
        m)

/-- The mirroring work for one container instance: fetch its container
(the unguarded `.(*Container)` assertion panics when the registered entity
is not a Container) and mirror each of the container's relationships. -/
def Model.mirrorInstance (m : Model) (ciElemID : Nat) : Except GoPanic Model :=
  match m.instanceAt ciElemID with
  | none => .ok m
  | some ci =>
    match m.containerAt ci.containerID with
    | none => .error .badContainerAssertion
    | some c =>
      c.data.relationships.foldlM
        (fun acc rid =>
          match acc.getRel rid with
          | none => .ok acc
          | some r => acc.mirrorRel ciElemID r)
        m

/-- The first `Finalize` pass (container-instance relationship mirroring),
visiting the container instances of the model in declaration order. -/
def Model.finalizeMirror (m : Model) : Except GoPanic Model :=
  (m.allInstances.map (fun ci => ci.data.id)).foldlM Model.mirrorInstance m

/-- The duplicate check at the top of `addMissingRelationships` (lines
319-323): scan the source element's outgoing relationships in order; the
condition dereferences each scanned relationship's destination (nil
panics), and a relationship to the same destination with the same
description short-circuits the whole addition. -/
def Model.scanExisting (m : Model) (destID : Nat) (desc : String) :
    List Nat → Except GoPanic Bool
  | [] => .ok false
  | rid :: rest =>
    match m.getRel rid with
    | none => Model.scanExisting m destID desc rest
    | some rr =>
      match rr.destination with
      | none => .error .nilDestination
      | some dd =>
        if dd == destID && rr.description == desc then .ok true
        else Model.scanExisting m destID desc rest

/-- The mutation performed by a non-skipped `addMissingRelationships`
step: duplicate `existing` from source to destination, register the copy
and append it to the source element's relationships. -/
def Model.missingAppend (m : Model) (srcID destID : Nat) (ex : Relationship) : Model :=
  (m.registerRel (ex.dup srcID destID m.nextID)).addRelToElem srcID
    (ex.dup srcID destID m.nextID).id

/-- Mirrors `addMissingRelationships`: skip when the source already has a
relationship to the destination with the same description; otherwise
duplicate `existing` from source to destination, register and attach it
(`missingAppend`), and recurse towards the destination's parents
(Container → its System; Component → its Container then that Container's
System).  The recursion depth through the hierarchy is at most three, so
`Finalize` calls it with fuel 3; `outOfFuel` only arises beyond that
artificial bound. -/
def addMissingRelationships : Nat → Model → Nat → Nat → Relationship → Except GoPanic Model
  | 0, _, _, _, _ => .error .outOfFuel
  | fuel+1, m, srcID, destID, ex => do
    let found ← m.scanExisting destID ex.description (m.elemRelIDs srcID)
    if found then .ok m
    else
      match (m.missingAppend srcID destID ex).lookupHolder destID with
      | some (.container _ parentS) =>
          addMissingRelationships fuel (m.missingAppend srcID destID ex) srcID parentS.data.id ex
      | some (.component _ parentC parentS) => do
          let m2 ← addMissingRelationships fuel (m.missingAppend srcID destID ex) srcID
            parentC.data.id ex
          addMissingRelationships fuel m2 srcID parentS.data.id ex
      | _ => .ok (m.missingAppend srcID destID ex)

/-- One step of the second `Finalize` pass (lines 117-127): a relationship
whose source is a Container propagates to the source's System; one whose
source is a Component propagates to its Container and then that Container's
System; all other sources are skipped.  `addMissingRelationships`
dereferences the destination, so a nil destination panics. -/
def Model.impliedStep (m : Model) (r : Relationship) : Except GoPanic Model :=
  match m.lookupHolder r.sourceID with
  | some (.container _ parentS) =>
    match r.destination with
    | none => .error .nilDestination
    | some d => addMissingRelationships 3 m parentS.data.id d r
  | some (.component _ parentC parentS) =>
    match r.destination with
    | none => .error .nilDestination
    | some d => do
        let m1 ← addMissingRelationships 3 m parentC.data.id d r
        addMissingRelationships 3 m1 parentS.data.id d r
  | _ => .ok m

/-- Mirrors `Model.Finalize`: the container-instance mirroring pass always
runs; the implied-relationship pass runs only when the model's inference
flag is set, visiting the registered relationships in registration order
(relationships added by the pass itself propagate nothing new: every
propagation they could trigger is deduplicated away). -/
def Model.finalize (m : Model) : Except GoPanic Model := do
  let m1 ← m.finalizeMirror
  if m1.addImpliedRelationships then
    m1.rels.foldlM Model.impliedStep m1
  else
    .ok m1

/-! ### Concrete models used by the claims -/

/-- The empty model. -/
def emptyModel : Model := ⟨"", [], [], [], false, [], 0⟩

/-- Chain lookup `(software system, container, component)` at the top
level, as performed by the three-segment case of `FindElement`. -/
def Model.resolve3 (m : Model) (a b c : String) : Option Component :=
  (m.softwareSystem a).bind fun s => (s.container b).bind fun ctr => ctr.component c

/-- Component `"Checkout"` of the `"Sales"/"Orders"` scenario. -/
def checkoutCmp : Component := ⟨⟨3, "Checkout", "", "", [], []⟩⟩

/-- Container `"Orders"` of the `"Sales"` scenario. -/
def ordersCtr : Container := ⟨⟨2, "Orders", "", "", [], []⟩, [checkoutCmp]⟩

/-- SoftwareSystem `"Sales"` with container `"Orders"` and component
`"Checkout"`. -/
def salesSys : SoftwareSystem := ⟨⟨1, "Sales", "", "", [], []⟩, none, [ordersCtr]⟩

/-- Model holding only the `"Sales"` system. -/
def mSales : Model := ⟨"", [], [salesSys], [], false, [], 4⟩

/-! ### C2 — two-segment paths -/

/-- C2: the claim states that for every 2-segment path and every scope,
including a nil scope, a failed resolution yields an error value and never
a panic.  The code contradicts this (and its own doc comment, which allows
a nil scope): the failure branch of the two-segment case evaluates
`scope.GetElement().Name` without the nil guard that the one-segment case
has, so a nil scope panics with a nil-pointer dereference.  Witnessed here
on the empty model with path `"A/B"`, where neither interpretation
resolves. -/
theorem claim2_two_segment_nil_scope_panics :
    emptyModel.findElement none "A/B" = .panicked ∧
    emptyModel.findElement (some (.other ⟨0, "scope", "", "", [], []⟩)) "A/B" =
      .fail "\"A/B\" does not match the name of a software system and container or the name of a container and component in the scope of \"scope\"" :=
  ⟨rfl, rfl⟩

/-! ### C7 — three-segment and longer paths -/

/-- C7: a three-segment path resolves only as (system, container,
component) at the top level, independently of the scope, returning that
component on success and an error naming all three segments on failure;
any path of four or more segments always fails. -/
theorem claim7_three_segment_resolution (m : Model) (scope : Option Scope) (path : String) :
    (∀ a b c, splitPath path = [a, b, c] →
      (∀ cmp, m.resolve3 a b c = some cmp →
          m.findElement scope path = .found (.component cmp)) ∧
      (m.resolve3 a b c = none →
          m.findElement scope path =
            .fail (quo path ++ " does not match the name of a software system, container and component")) ∧
      (∀ scope', m.findElement scope path = m.findElement scope' path)) ∧
    (∀ a b c d rest, splitPath path = a :: b :: c :: d :: rest →
      m.findElement scope path = .fail "too many colons in path") := by
  constructor
  · intro a b c h
    refine ⟨?_, ?_, ?_⟩
    · intro cmp hr
      simp only [Model.resolve3, Option.bind_eq_some] at hr
      obtain ⟨s, hs, ctr, hctr, hcmp⟩ := hr
      simp [Model.findElement, h, hs, hctr, hcmp]
    · intro hr
      simp only [Model.findElement, h]
      cases hs : m.softwareSystem a with
      | none => simp
      | some s =>
        cases hctr : s.container b with
        | none => simp [hctr]
        | some ctr =>
          cases hcmp : ctr.component c with
          | none => simp [hctr, hcmp]
          | some cmp => simp [Model.resolve3, hs, hctr, hcmp] at hr
    · intro scope'
      simp only [Model.findElement, h]
  · intro a b c d rest h
    simp only [Model.findElement, h]

/-- Witness for C7 at the spec's scenario: `FindElement(nil,
"Sales/Orders/Checkout")` returns the `"Checkout"` component. -/
theorem claim7_witness :
    splitPath "Sales/Orders/Checkout" = ["Sales", "Orders", "Checkout"] ∧
    mSales.resolve3 "Sales" "Orders" "Checkout" = some checkoutCmp ∧
    mSales.findElement none "Sales/Orders/Checkout" = .found (.component checkoutCmp) :=
  ⟨rfl, rfl,
    ((claim7_three_segment_resolution mSales none "Sales/Orders/Checkout").1
      "Sales" "Orders" "Checkout" rfl).1 checkoutCmp rfl⟩

/-! ### C8 — one-segment paths -/

/-- C8: a one-segment path is first looked up scope-relatively (the scope
Container's child component, or the scope SoftwareSystem's child
container); only when that yields nothing does the top-level lookup run,
trying people before software systems.  In particular a scope child shadows
any same-named top-level element. -/
theorem claim8_one_segment_resolution_order (m : Model) (scope : Option Scope)
    (path x : String) (h : splitPath path = [x]) :
    (∀ f, scopeChild scope path = some f → m.findElement scope path = .found f) ∧
    (scopeChild scope path = none → ∀ p, m.person path = some p →
        m.findElement scope path = .found (.person p)) ∧
    (scopeChild scope path = none → m.person path = none →
        ∀ s, m.softwareSystem path = some s →
          m.findElement scope path = .found (.system s)) := by
  refine ⟨?_, ?_, ?_⟩
  · intro f hf
    simp [Model.findElement, h, hf]
  · intro hsc p hp
    simp [Model.findElement, h, hsc, hp]
  · intro hsc hp s hs
    simp [Model.findElement, h, hsc, hp, hs]

/-- Shadowing model for the C8 witness: the system has a container `"X"`
and the model also has a person `"X"`. -/
def mShadow : Model :=
  ⟨"", [⟨⟨5, "X", "", "", [], []⟩, none⟩],
    [⟨⟨1, "SS", "", "", [], []⟩, none, [⟨⟨2, "X", "", "", [], []⟩, []⟩]⟩], [], false, [], 6⟩

/-- The container `"X"` of the shadowing model. -/
def xCtr : Container := ⟨⟨2, "X", "", "", [], []⟩, []⟩

/-- Witness for C8: with the `"SS"` system as scope, path `"X"` returns the
scope's child container even though a person named `"X"` exists at the top
level. -/
theorem claim8_witness :
    scopeChild (some (.softwareSystem ⟨⟨1, "SS", "", "", [], []⟩, none, [xCtr]⟩)) "X" =
      some (.container xCtr) ∧
    (mShadow.person "X").isSome = true ∧
    mShadow.findElement (some (.softwareSystem ⟨⟨1, "SS", "", "", [], []⟩, none, [xCtr]⟩)) "X" =
      .found (.container xCtr) :=
  ⟨rfl, rfl,
    (claim8_one_segment_resolution_order mShadow
        (some (.softwareSystem ⟨⟨1, "SS", "", "", [], []⟩, none, [xCtr]⟩)) "X" "X" rfl).1
      (.container xCtr) rfl⟩

/-! ### Merge-engine lemmas -/

/-- A successful `find?` splits the list around the first hit. -/
theorem find?_split {α : Type} (p : α → Bool) (l : List α) (x : α)
    (h : l.find? p = some x) :
    ∃ pre post, l = pre ++ x :: post ∧ p x = true ∧ ∀ q ∈ pre, p q = false := by
  induction l with
  | nil => simp at h
  | cons a l ih =>
    by_cases ha : p a
    · refine ⟨[], l, ?_, ?_, ?_⟩ <;> simp_all [List.find?_cons_of_pos]
    · rw [List.find?_cons_of_neg _ (by simpa using ha)] at h
      obtain ⟨pre, post, rfl, hx, hpre⟩ := ih h
      exact ⟨a :: pre, post, rfl, hx, by
        intro q hq
        rcases List.mem_cons.1 hq with rfl | hq
        · simpa using ha
        · exact hpre q hq⟩

/-- The element data produced by `Person.merge`: the description is
overwritten only by a non-empty incoming description; nothing else of the
data changes. -/
theorem Person.person_merge_data (ex p : Person) :
    (ex.merge p).data =
      if p.data.description = "" then ex.data
      else { ex.data with description := p.data.description } := by
  unfold Person.merge
  by_cases hd : p.data.description = ""
  · simp only [hd, if_pos rfl, beq_self_eq_true, if_true]
    cases ex.dslFunc <;> rfl
  · have : (p.data.description == "") = false := by simpa using hd
    simp only [this, if_neg hd, Bool.false_eq_true, if_false]
    cases ex.dslFunc <;> rfl

/-- The element data produced by `SoftwareSystem.merge`. -/
theorem SoftwareSystem.system_merge_data (ex s : SoftwareSystem) :
    (ex.merge s).data =
      if s.data.description = "" then ex.data
      else { ex.data with description := s.data.description } := by
  unfold SoftwareSystem.merge
  by_cases hd : s.data.description = ""
  · simp only [hd, if_pos rfl, beq_self_eq_true, if_true]
    cases ex.dslFunc <;> rfl
  · have : (s.data.description == "") = false := by simpa using hd
    simp only [this, if_neg hd, Bool.false_eq_true, if_false]
    cases ex.dslFunc <;> rfl

/-- The element data produced by `DeploymentNode.merge`: description and
technology are each overwritten only by non-empty incoming values. -/
theorem DeploymentNode.node_merge_data (ex d : DeploymentNode) :
    (ex.merge d).data =
      (fun e => if d.data.technology = "" then e
                else { e with technology := d.data.technology })
        (if d.data.description = "" then ex.data
         else { ex.data with description := d.data.description }) := by
  unfold DeploymentNode.merge
  by_cases hd : d.data.description = "" <;> by_cases ht : d.data.technology = ""
  all_goals
    simp only [hd, ht, beq_iff_eq, if_true, if_false, if_pos, if_neg, reduceIte,
      beq_self_eq_true, ite_true, ite_false]
  all_goals (cases ex.dslFunc <;> rfl)

/-- Merging preserves the element name. -/
theorem Person.person_merge_name (ex p : Person) : (ex.merge p).data.name = ex.data.name := by
  rw [Person.person_merge_data]; split <;> rfl

/-- Merging preserves the element name. -/
theorem SoftwareSystem.system_merge_name (ex s : SoftwareSystem) :
    (ex.merge s).data.name = ex.data.name := by
  rw [SoftwareSystem.system_merge_data]; split <;> rfl

/-- Merging preserves the element name. -/
theorem DeploymentNode.node_merge_name (ex d : DeploymentNode) :
    (ex.merge d).data.name = ex.data.name := by
  rw [DeploymentNode.node_merge_data]; split <;> split <;> rfl

/-- `addPersonAux` fails exactly on lists without the incoming name. -/
theorem addPersonAux_eq_none (l : List Person) (p : Person)
    (h : ∀ q ∈ l, (q.data.name == p.data.name) = false) :
    addPersonAux l p = none := by
  induction l with
  | nil => rfl
  | cons a l ih =>
    have ha := h a (by simp)
    simp only [addPersonAux, ha, Bool.false_eq_true, if_false]
    rw [ih (fun q hq => h q (by simp [hq]))]

/-- `addPersonAux` merges in place at the first entry with the incoming
name. -/
theorem addPersonAux_split (p : Person) (pre post : List Person) (ex : Person)
    (hpre : ∀ q ∈ pre, (q.data.name == p.data.name) = false)
    (hex : (ex.data.name == p.data.name) = true) :
    addPersonAux (pre ++ ex :: post) p = some (pre ++ ex.merge p :: post, ex.merge p) := by
  induction pre with
  | nil => simp [addPersonAux, hex]
  | cons a pre ih =>
    have ha := hpre a (by simp)
    simp only [List.cons_append, addPersonAux, ha, Bool.false_eq_true, if_false,
      List.append_eq]
    rw [ih (fun q hq => hpre q (by simp [hq]))]

/-- `addSystemAux` fails exactly on lists without the incoming name. -/
theorem addSystemAux_eq_none (l : List SoftwareSystem) (s : SoftwareSystem)
    (h : ∀ q ∈ l, (q.data.name == s.data.name) = false) :
    addSystemAux l s = none := by
  induction l with
  | nil => rfl
  | cons a l ih =>
    have ha := h a (by simp)
    simp only [addSystemAux, ha, Bool.false_eq_true, if_false]
    rw [ih (fun q hq => h q (by simp [hq]))]

/-- `addSystemAux` merges in place at the first entry with the incoming
name. -/
theorem addSystemAux_split (s : SoftwareSystem) (pre post : List SoftwareSystem)
    (ex : SoftwareSystem)
    (hpre : ∀ q ∈ pre, (q.data.name == s.data.name) = false)
    (hex : (ex.data.name == s.data.name) = true) :
    addSystemAux (pre ++ ex :: post) s = some (pre ++ ex.merge s :: post, ex.merge s) := by
  induction pre with
  | nil => simp [addSystemAux, hex]
  | cons a pre ih =>
    have ha := hpre a (by simp)
    simp only [List.cons_append, addSystemAux, ha, Bool.false_eq_true, if_false,
      List.append_eq]
    rw [ih (fun q hq => hpre q (by simp [hq]))]

/-- `addDeploymentNodeAux` fails exactly on lists without the incoming
name. -/
theorem addDeploymentNodeAux_eq_none (l : List DeploymentNode) (d : DeploymentNode)
    (h : ∀ q ∈ l, (q.data.name == d.data.name) = false) :
    addDeploymentNodeAux l d = none := by
  induction l with
  | nil => rfl
  | cons a l ih =>
    have ha := h a (by simp)
    simp only [addDeploymentNodeAux, ha, Bool.false_eq_true, if_false]
    rw [ih (fun q hq => h q (by simp [hq]))]

/-- `addDeploymentNodeAux` merges in place at the first entry with the
incoming name. -/
theorem addDeploymentNodeAux_split (d : DeploymentNode) (pre post : List DeploymentNode)
    (ex : DeploymentNode)
    (hpre : ∀ q ∈ pre, (q.data.name == d.data.name) = false)
    (hex : (ex.data.name == d.data.name) = true) :
    addDeploymentNodeAux (pre ++ ex :: post) d = some (pre ++ ex.merge d :: post, ex.merge d) := by
  induction pre with
  | nil => simp [addDeploymentNodeAux, hex]
  | cons a pre ih =>
    have ha := hpre a (by simp)
    simp only [List.cons_append, addDeploymentNodeAux, ha, Bool.false_eq_true, if_false,
      List.append_eq]
    rw [ih (fun q hq => hpre q (by simp [hq]))]

/-- Behaviour of `Model.addPerson` on both branches: the precise
characterization used by the claims. -/
theorem addPerson_spec (m : Model) (p : Person) :
    (m.person p.data.name = none →
      m.addPerson p =
        ({ m with
            people := m.people ++ [{ p with data := { p.data with id := m.nextID } }],
            nextID := m.nextID + 1 },
          { p with data := { p.data with id := m.nextID } })) ∧
    (∀ ex, m.person p.data.name = some ex →
      ∃ pre post,
        m.people = pre ++ ex :: post ∧
        (∀ q ∈ pre, (q.data.name == p.data.name) = false) ∧
        m.addPerson p = ({ m with people := pre ++ ex.merge p :: post }, ex.merge p)) := by
  constructor
  · intro h
    have hnone : addPersonAux m.people p = none := by
      apply addPersonAux_eq_none
      intro q hq
      simpa using List.find?_eq_none.1 h q hq
    simp [Model.addPerson, hnone]
  · intro ex h
    obtain ⟨pre, post, hsplit, hx, hpre⟩ := find?_split _ _ _ h
    refine ⟨pre, post, hsplit, hpre, ?_⟩
    have haux : addPersonAux m.people p = some (pre ++ ex.merge p :: post, ex.merge p) := by
      rw [hsplit]; exact addPersonAux_split p pre post ex hpre hx
    simp [Model.addPerson, haux]

/-- Behaviour of `Model.addSystem` on both branches. -/
theorem addSystem_spec (m : Model) (s : SoftwareSystem) :
    (m.softwareSystem s.data.name = none →
      m.addSystem s =
        ({ m with
            systems := m.systems ++ [{ s with data := { s.data with id := m.nextID } }],
            nextID := m.nextID + 1 },
          { s with data := { s.data with id := m.nextID } })) ∧
    (∀ ex, m.softwareSystem s.data.name = some ex →
      ∃ pre post,
        m.systems = pre ++ ex :: post ∧
        (∀ q ∈ pre, (q.data.name == s.data.name) = false) ∧
        m.addSystem s = ({ m with systems := pre ++ ex.merge s :: post }, ex.merge s)) := by
  constructor
  · intro h
    have hnone : addSystemAux m.systems s = none := by
      apply addSystemAux_eq_none
      intro q hq
      simpa using List.find?_eq_none.1 h q hq
    simp [Model.addSystem, hnone]
  · intro ex h
    obtain ⟨pre, post, hsplit, hx, hpre⟩ := find?_split _ _ _ h
    refine ⟨pre, post, hsplit, hpre, ?_⟩
    have haux : addSystemAux m.systems s = some (pre ++ ex.merge s :: post, ex.merge s) := by
      rw [hsplit]; exact addSystemAux_split s pre post ex hpre hx
    simp [Model.addSystem, haux]

/-- Behaviour of `Model.addDeploymentNode` on both branches. -/
theorem addDeploymentNode_spec (m : Model) (d : DeploymentNode) :
    (m.deploymentNode d.data.name = none →
      m.addDeploymentNode d =
        ({ m with
            deploymentNodes := m.deploymentNodes ++ [{ d with data := { d.data with id := m.nextID } }],
            nextID := m.nextID + 1 },
          { d with data := { d.data with id := m.nextID } })) ∧
    (∀ ex, m.deploymentNode d.data.name = some ex →
      ∃ pre post,
        m.deploymentNodes = pre ++ ex :: post ∧
        (∀ q ∈ pre, (q.data.name == d.data.name) = false) ∧
        m.addDeploymentNode d =
          ({ m with deploymentNodes := pre ++ ex.merge d :: post }, ex.merge d)) := by
  constructor
  · intro h
    have hnone : addDeploymentNodeAux m.deploymentNodes d = none := by
      apply addDeploymentNodeAux_eq_none
      intro q hq
      simpa using List.find?_eq_none.1 h q hq
    simp [Model.addDeploymentNode, hnone]
  · intro ex h
    obtain ⟨pre, post, hsplit, hx, hpre⟩ := find?_split _ _ _ h
    refine ⟨pre, post, hsplit, hpre, ?_⟩
    have haux : addDeploymentNodeAux m.deploymentNodes d =
        some (pre ++ ex.merge d :: post, ex.merge d) := by
      rw [hsplit]; exact addDeploymentNodeAux_split d pre post ex hpre hx
    simp [Model.addDeploymentNode, haux]

/-! ### C9 — upsert-by-name merge semantics -/

/-- C9: on an existing name, each of `AddPerson`/`AddSystem`/
`AddDeploymentNode` overwrites the description (and, for deployment nodes,
the technology) only when the incoming value is non-empty, returns the
merged existing entity, keeps the collection length unchanged and never
advances the identity counter; on a new name, it assigns the next
identity, appends, and returns the entity otherwise unchanged. -/
theorem claim9_merge_upsert :
    (∀ (m : Model) (p : Person),
      (m.person p.data.name = none →
        m.addPerson p =
          ({ m with
              people := m.people ++ [{ p with data := { p.data with id := m.nextID } }],
              nextID := m.nextID + 1 },
            { p with data := { p.data with id := m.nextID } })) ∧
      (∀ ex, m.person p.data.name = some ex →
        (m.addPerson p).2 = ex.merge p ∧
        (ex.merge p).data.id = ex.data.id ∧
        (ex.merge p).data.description =
          (if p.data.description = "" then ex.data.description else p.data.description) ∧
        (m.addPerson p).1.nextID = m.nextID ∧
        (m.addPerson p).1.people.length = m.people.length)) ∧
    (∀ (m : Model) (s : SoftwareSystem),
      (m.softwareSystem s.data.name = none →
        m.addSystem s =
          ({ m with
              systems := m.systems ++ [{ s with data := { s.data with id := m.nextID } }],
              nextID := m.nextID + 1 },
            { s with data := { s.data with id := m.nextID } })) ∧
      (∀ ex, m.softwareSystem s.data.name = some ex →
        (m.addSystem s).2 = ex.merge s ∧
        (ex.merge s).data.id = ex.data.id ∧
        (ex.merge s).data.description =
          (if s.data.description = "" then ex.data.description else s.data.description) ∧
        (m.addSystem s).1.nextID = m.nextID ∧
        (m.addSystem s).1.systems.length = m.systems.length)) ∧
    (∀ (m : Model) (d : DeploymentNode),
      (m.deploymentNode d.data.name = none →
        m.addDeploymentNode d =
          ({ m with
              deploymentNodes := m.deploymentNodes ++ [{ d with data := { d.data with id := m.nextID } }],
              nextID := m.nextID + 1 },
            { d with data := { d.data with id := m.nextID } })) ∧
      (∀ ex, m.deploymentNode d.data.name = some ex →
        (m.addDeploymentNode d).2 = ex.merge d ∧
        (ex.merge d).data.id = ex.data.id ∧
        (ex.merge d).data.description =
          (if d.data.description = "" then ex.data.description else d.data.description) ∧
        (ex.merge d).data.technology =
          (if d.data.technology = "" then ex.data.technology else d.data.technology) ∧
        (m.addDeploymentNode d).1.nextID = m.nextID ∧
        (m.addDeploymentNode d).1.deploymentNodes.length = m.deploymentNodes.length)) := by
  refine ⟨fun m p => ⟨(addPerson_spec m p).1, ?_⟩,
          fun m s => ⟨(addSystem_spec m s).1, ?_⟩,
          fun m d => ⟨(addDeploymentNode_spec m d).1, ?_⟩⟩
  · intro ex h
    obtain ⟨pre, post, hsplit, hpre, hadd⟩ := (addPerson_spec m p).2 ex h
    refine ⟨by rw [hadd], ?_, ?_, by rw [hadd], by rw [hadd, hsplit]; simp⟩
    · rw [Person.person_merge_data]; split <;> rfl
    · rw [Person.person_merge_data]; split <;> simp_all
  · intro ex h
    obtain ⟨pre, post, hsplit, hpre, hadd⟩ := (addSystem_spec m s).2 ex h
    refine ⟨by rw [hadd], ?_, ?_, by rw [hadd], by rw [hadd, hsplit]; simp⟩
    · rw [SoftwareSystem.system_merge_data]; split <;> rfl
    · rw [SoftwareSystem.system_merge_data]; split <;> simp_all
  · intro ex h
    obtain ⟨pre, post, hsplit, hpre, hadd⟩ := (addDeploymentNode_spec m d).2 ex h
    refine ⟨by rw [hadd], ?_, ?_, ?_, by rw [hadd], by rw [hadd, hsplit]; simp⟩
    · rw [DeploymentNode.node_merge_data]; split <;> split <;> rfl
    · rw [DeploymentNode.node_merge_data]; split <;> split <;> simp_all
    · rw [DeploymentNode.node_merge_data]; split <;> split <;> simp_all

/-- One existing person `"User"` with description `"X"`. -/
def mUserX : Model := ⟨"", [⟨⟨0, "User", "X", "", [], []⟩, none⟩], [], [], false, [], 1⟩

/-- Incoming duplicate declaration of `"User"` with an empty description. -/
def pUserEmpty : Person := ⟨⟨7, "User", "", "", [], []⟩, none⟩

/-- Incoming duplicate declaration of `"User"` with description `"Y"`. -/
def pUserY : Person := ⟨⟨7, "User", "Y", "", [], []⟩, none⟩

/-- Witness for C9: merging an empty description retains `"X"`, merging
`"Y"` overwrites it, and neither merge advances the identity counter. -/
theorem claim9_witness :
    (mUserX.addPerson pUserEmpty).2.data.description = "X" ∧
    (mUserX.addPerson pUserY).2.data.description = "Y" ∧
    (mUserX.addPerson pUserEmpty).1.nextID = mUserX.nextID ∧
    (mUserX.addPerson pUserEmpty).1.people.length = mUserX.people.length := by
  obtain ⟨h1, _, h3, h4, h5⟩ :=
    (claim9_merge_upsert.1 mUserX pUserEmpty).2 ⟨⟨0, "User", "X", "", [], []⟩, none⟩ rfl
  obtain ⟨g1, _, g3, _, _⟩ :=
    (claim9_merge_upsert.1 mUserX pUserY).2 ⟨⟨0, "User", "X", "", [], []⟩, none⟩ rfl
  refine ⟨?_, ?_, h4, h5⟩
  · rw [h1, h3]; rfl
  · rw [g1, g3]; rfl

/-! ### C3 — composition of deferred-initialization functions -/

/-- Merging composes deferred functions only when the existing one is
non-nil. -/
theorem Person.person_merge_dslFunc_some (ex p : Person) (F0 g : DSLFn)
    (hex : ex.dslFunc = some F0) (hp : p.dslFunc = some g) :
    (ex.merge p).dslFunc = some (.seqCall F0 g) := by
  unfold Person.merge
  split <;> simp [hex, hp]

/-- When the existing deferred function is nil, merging leaves it nil: the
incoming function is dropped. -/
theorem Person.merge_dslFunc_none (ex p : Person) (hex : ex.dslFunc = none) :
    (ex.merge p).dslFunc = none := by
  unfold Person.merge
  split <;> simp [hex]

/-- System version of `Person.person_merge_dslFunc_some`. -/
theorem SoftwareSystem.system_merge_dslFunc_some (ex s : SoftwareSystem) (F0 g : DSLFn)
    (hex : ex.dslFunc = some F0) (hp : s.dslFunc = some g) :
    (ex.merge s).dslFunc = some (.seqCall F0 g) := by
  unfold SoftwareSystem.merge
  split <;> simp [hex, hp]

/-- Deployment-node version of `Person.person_merge_dslFunc_some`. -/
theorem DeploymentNode.node_merge_dslFunc_some (ex d : DeploymentNode) (F0 g : DSLFn)
    (hex : ex.dslFunc = some F0) (hp : d.dslFunc = some g) :
    (ex.merge d).dslFunc = some (.seqCall F0 g) := by
  unfold DeploymentNode.merge
  split <;> split <;> simp [hex, hp]

/-- After a merge, looking the name up again returns the merged person. -/
theorem addPerson_found (m : Model) (p : Person) (ex : Person)
    (h : m.person p.data.name = some ex) :
    (m.addPerson p).2 = ex.merge p ∧
    (m.addPerson p).1.person p.data.name = some (ex.merge p) := by
  obtain ⟨pre, post, hsplit, hpre, hadd⟩ := (addPerson_spec m p).2 ex h
  have hx0 := List.find?_some
    (show m.people.find? (fun q => q.data.name == p.data.name) = some ex from h)
  have hx : (ex.data.name == p.data.name) = true := hx0
  refine ⟨by rw [hadd], ?_⟩
  rw [hadd]
  show (pre ++ ex.merge p :: post).find? (fun q => q.data.name == p.data.name) =
    some (ex.merge p)
  rw [List.find?_append, List.find?_eq_none.2 (fun q hq => by simp [hpre q hq]),
    Option.none_or]
  exact List.find?_cons_of_pos post (by rw [Person.person_merge_name]; exact hx)

/-- After a merge, looking the name up again returns the merged system. -/
theorem addSystem_found (m : Model) (s : SoftwareSystem) (ex : SoftwareSystem)
    (h : m.softwareSystem s.data.name = some ex) :
    (m.addSystem s).2 = ex.merge s ∧
    (m.addSystem s).1.softwareSystem s.data.name = some (ex.merge s) := by
  obtain ⟨pre, post, hsplit, hpre, hadd⟩ := (addSystem_spec m s).2 ex h
  have hx0 := List.find?_some
    (show m.systems.find? (fun q => q.data.name == s.data.name) = some ex from h)
  have hx : (ex.data.name == s.data.name) = true := hx0
  refine ⟨by rw [hadd], ?_⟩
  rw [hadd]
  show (pre ++ ex.merge s :: post).find? (fun q => q.data.name == s.data.name) =
    some (ex.merge s)
  rw [List.find?_append, List.find?_eq_none.2 (fun q hq => by simp [hpre q hq]),
    Option.none_or]
  exact List.find?_cons_of_pos post (by rw [SoftwareSystem.system_merge_name]; exact hx)

/-- After a merge, looking the name up again returns the merged node. -/
theorem addDeploymentNode_found (m : Model) (d : DeploymentNode) (ex : DeploymentNode)
    (h : m.deploymentNode d.data.name = some ex) :
    (m.addDeploymentNode d).2 = ex.merge d ∧
    (m.addDeploymentNode d).1.deploymentNode d.data.name = some (ex.merge d) := by
  obtain ⟨pre, post, hsplit, hpre, hadd⟩ := (addDeploymentNode_spec m d).2 ex h
  have hx0 := List.find?_some
    (show m.deploymentNodes.find? (fun q => q.data.name == d.data.name) = some ex from h)
  have hx : (ex.data.name == d.data.name) = true := hx0
  refine ⟨by rw [hadd], ?_⟩
  rw [hadd]
  show (pre ++ ex.merge d :: post).find? (fun q => q.data.name == d.data.name) =
    some (ex.merge d)
  rw [List.find?_append, List.find?_eq_none.2 (fun q hq => by simp [hpre q hq]),
    Option.none_or]
  exact List.find?_cons_of_pos post (by rw [DeploymentNode.node_merge_name]; exact hx)

/-- Folding a sequence of `AddPerson` calls, keeping the model. -/
def foldAddPersons (m : Model) (ps : List Person) : Model :=
  ps.foldl (fun acc p => (acc.addPerson p).1) m

/-- Folding a sequence of `AddSystem` calls. -/
def foldAddSystems (m : Model) (ss : List SoftwareSystem) : Model :=
  ss.foldl (fun acc s => (acc.addSystem s).1) m

/-- Folding a sequence of `AddDeploymentNode` calls. -/
def foldAddDeploymentNodes (m : Model) (ds : List DeploymentNode) : Model :=
  ds.foldl (fun acc d => (acc.addDeploymentNode d).1) m

/-- Deferred-function accumulation across repeated `AddPerson` calls, when
the entity already present has a non-nil deferred function and every
repeated declaration carries one. -/
theorem foldAddPersons_dsl (ps : List Person) :
    ∀ (m : Model) (nm : String) (ex : Person) (F0 : DSLFn) (tr0 : List Nat)
      (acts : Person → List Nat),
      m.person nm = some ex → ex.dslFunc = some F0 → F0.run = .ok tr0 →
      (∀ p ∈ ps, p.data.name = nm ∧ p.dslFunc = some (.leaf (acts p))) →
      ∃ ex' F, (foldAddPersons m ps).person nm = some ex' ∧ ex'.dslFunc = some F ∧
        F.run = .ok (tr0 ++ (ps.map acts).flatten) := by
  induction ps with
  | nil =>
    intro m nm ex F0 tr0 acts h hF hrun _
    exact ⟨ex, F0, h, hF, by simpa using hrun⟩
  | cons p ps ih =>
    intro m nm ex F0 tr0 acts h hF hrun hall
    obtain ⟨hname, hdsl⟩ := hall p (by simp)
    have h' : m.person p.data.name = some ex := by rw [hname]; exact h
    obtain ⟨hret, hlook⟩ := addPerson_found m p ex h'
    have hmerged : (ex.merge p).dslFunc = some (.seqCall F0 (.leaf (acts p))) :=
      Person.person_merge_dslFunc_some ex p F0 _ hF hdsl
    have hrun' : (DSLFn.seqCall F0 (.leaf (acts p))).run = .ok (tr0 ++ acts p) := by
      simp only [DSLFn.run, hrun]; rfl
    have hlook' : (m.addPerson p).1.person nm = some (ex.merge p) := by
      rw [← hname]; exact hlook
    obtain ⟨ex', F, h1, h2, h3⟩ :=
      ih (m.addPerson p).1 nm (ex.merge p) _ (tr0 ++ acts p) acts hlook' hmerged hrun'
        (fun q hq => hall q (by simp [hq]))
    refine ⟨ex', F, ?_, h2, ?_⟩
    · simpa [foldAddPersons] using h1
    · rw [h3]; simp

/-- Deferred-function accumulation across repeated `AddSystem` calls. -/
theorem foldAddSystems_dsl (ss : List SoftwareSystem) :
    ∀ (m : Model) (nm : String) (ex : SoftwareSystem) (F0 : DSLFn) (tr0 : List Nat)
      (acts : SoftwareSystem → List Nat),
      m.softwareSystem nm = some ex → ex.dslFunc = some F0 → F0.run = .ok tr0 →
      (∀ s ∈ ss, s.data.name = nm ∧ s.dslFunc = some (.leaf (acts s))) →
      ∃ ex' F, (foldAddSystems m ss).softwareSystem nm = some ex' ∧ ex'.dslFunc = some F ∧
        F.run = .ok (tr0 ++ (ss.map acts).flatten) := by
  induction ss with
  | nil =>
    intro m nm ex F0 tr0 acts h hF hrun _
    exact ⟨ex, F0, h, hF, by simpa using hrun⟩
  | cons s ss ih =>
    intro m nm ex F0 tr0 acts h hF hrun hall
    obtain ⟨hname, hdsl⟩ := hall s (by simp)
    have h' : m.softwareSystem s.data.name = some ex := by rw [hname]; exact h
    obtain ⟨hret, hlook⟩ := addSystem_found m s ex h'
    have hmerged : (ex.merge s).dslFunc = some (.seqCall F0 (.leaf (acts s))) :=
      SoftwareSystem.system_merge_dslFunc_some ex s F0 _ hF hdsl
    have hrun' : (DSLFn.seqCall F0 (.leaf (acts s))).run = .ok (tr0 ++ acts s) := by
      simp only [DSLFn.run, hrun]; rfl
    have hlook' : (m.addSystem s).1.softwareSystem nm = some (ex.merge s) := by
      rw [← hname]; exact hlook
    obtain ⟨ex', F, h1, h2, h3⟩ :=
      ih (m.addSystem s).1 nm (ex.merge s) _ (tr0 ++ acts s) acts hlook' hmerged hrun'
        (fun q hq => hall q (by simp [hq]))
    refine ⟨ex', F, ?_, h2, ?_⟩
    · simpa [foldAddSystems] using h1
    · rw [h3]; simp

/-- Deferred-function accumulation across repeated `AddDeploymentNode`
calls. -/
theorem foldAddDeploymentNodes_dsl (ds : List DeploymentNode) :
    ∀ (m : Model) (nm : String) (ex : DeploymentNode) (F0 : DSLFn) (tr0 : List Nat)
      (acts : DeploymentNode → List Nat),
      m.deploymentNode nm = some ex → ex.dslFunc = some F0 → F0.run = .ok tr0 →
      (∀ d ∈ ds, d.data.name = nm ∧ d.dslFunc = some (.leaf (acts d))) →
      ∃ ex' F, (foldAddDeploymentNodes m ds).deploymentNode nm = some ex' ∧
        ex'.dslFunc = some F ∧
        F.run = .ok (tr0 ++ (ds.map acts).flatten) := by
  induction ds with
  | nil =>
    intro m nm ex F0 tr0 acts h hF hrun _
    exact ⟨ex, F0, h, hF, by simpa using hrun⟩
  | cons d ds ih =>
    intro m nm ex F0 tr0 acts h hF hrun hall
    obtain ⟨hname, hdsl⟩ := hall d (by simp)
    have h' : m.deploymentNode d.data.name = some ex := by rw [hname]; exact h
    obtain ⟨hret, hlook⟩ := addDeploymentNode_found m d ex h'
    have hmerged : (ex.merge d).dslFunc = some (.seqCall F0 (.leaf (acts d))) :=
      DeploymentNode.node_merge_dslFunc_some ex d F0 _ hF hdsl
    have hrun' : (DSLFn.seqCall F0 (.leaf (acts d))).run = .ok (tr0 ++ acts d) := by
      simp only [DSLFn.run, hrun]; rfl
    have hlook' : (m.addDeploymentNode d).1.deploymentNode nm = some (ex.merge d) := by
      rw [← hname]; exact hlook
    obtain ⟨ex', F, h1, h2, h3⟩ :=
      ih (m.addDeploymentNode d).1 nm (ex.merge d) _ (tr0 ++ acts d) acts hlook' hmerged hrun'
        (fun q hq => hall q (by simp [hq]))
    refine ⟨ex', F, ?_, h2, ?_⟩
    · simpa [foldAddDeploymentNodes] using h1
    · rw [h3]; simp

/-- Model with one person `"User"` that has no deferred-initialization
function. -/
def mDslNone : Model := ⟨"", [⟨⟨0, "User", "", "", [], []⟩, none⟩], [], [], false, [], 1⟩

/-- Incoming duplicate declaration of `"User"` carrying deferred action 1. -/
def pIncomingDsl : Person := ⟨⟨9, "User", "", "", [], []⟩, some (.leaf [1])⟩

/-- C3 counterexample: when the existing entity's deferred function is nil,
`AddPerson` discards the incoming declaration's deferred function entirely
(the guard `if olddsl := existing.DSLFunc; olddsl != nil` composes only in
the non-nil case), so the incoming deferred logic can never execute —
refuting the claim that every declaration's deferred logic runs. -/
theorem claim3_counterexample :
    pIncomingDsl.dslFunc = some (.leaf [1]) ∧
    ((mDslNone.addPerson pIncomingDsl).2).dslFunc = none ∧
    (mDslNone.addPerson pIncomingDsl).1.people = mDslNone.people :=
  ⟨rfl, rfl, rfl⟩

/-- C3 (amended): provided every declaration of the repeated name carries a
non-nil deferred-initialization function, the merged entity's deferred
function is the composition of all declarations' functions and running it
executes every declaration's actions in first-seen-first-executed order
(the incoming logic strictly after the existing logic); this holds for
`AddPerson`, `AddSystem` and `AddDeploymentNode` alike.  If the existing
entity's deferred function is nil, the incoming one is discarded
(`claim3_counterexample`). -/
theorem claim3_amended_dsl_composition :
    (∀ (m : Model) (nm : String) (p0 : Person) (ps : List Person)
        (acts : Person → List Nat),
      m.person nm = none →
      (∀ q ∈ p0 :: ps, q.data.name = nm ∧ q.dslFunc = some (.leaf (acts q))) →
      ∃ ex' F, (foldAddPersons m (p0 :: ps)).person nm = some ex' ∧
        ex'.dslFunc = some F ∧
        F.run = .ok (((p0 :: ps).map acts).flatten)) ∧
    (∀ (m : Model) (nm : String) (s0 : SoftwareSystem) (ss : List SoftwareSystem)
        (acts : SoftwareSystem → List Nat),
      m.softwareSystem nm = none →
      (∀ q ∈ s0 :: ss, q.data.name = nm ∧ q.dslFunc = some (.leaf (acts q))) →
      ∃ ex' F, (foldAddSystems m (s0 :: ss)).softwareSystem nm = some ex' ∧
        ex'.dslFunc = some F ∧
        F.run = .ok (((s0 :: ss).map acts).flatten)) ∧
    (∀ (m : Model) (nm : String) (d0 : DeploymentNode) (ds : List DeploymentNode)
        (acts : DeploymentNode → List Nat),
      m.deploymentNode nm = none →
      (∀ q ∈ d0 :: ds, q.data.name = nm ∧ q.dslFunc = some (.leaf (acts q))) →
      ∃ ex' F, (foldAddDeploymentNodes m (d0 :: ds)).deploymentNode nm = some ex' ∧
        ex'.dslFunc = some F ∧
        F.run = .ok (((d0 :: ds).map acts).flatten)) := by
  refine ⟨?_, ?_, ?_⟩
  · intro m nm p0 ps acts h hall
    obtain ⟨hname, hdsl⟩ := hall p0 (by simp)
    have hnew : m.person p0.data.name = none := by rw [hname]; exact h
    have hadd := (addPerson_spec m p0).1 hnew
    have hlook : (m.addPerson p0).1.person nm =
        some { p0 with data := { p0.data with id := m.nextID } } := by
      rw [hadd]
      show (m.people ++ [{ p0 with data := { p0.data with id := m.nextID } }]).find?
          (fun q : Person => q.data.name == nm) = _
      rw [List.find?_append, show m.people.find? (fun q => q.data.name == nm) = none from h,
        Option.none_or]
      exact List.find?_cons_of_pos [] (by simp [hname])
    obtain ⟨ex', F, h1, h2, h3⟩ :=
      foldAddPersons_dsl ps (m.addPerson p0).1 nm _ (.leaf (acts p0)) (acts p0) acts hlook
        hdsl rfl (fun q hq => hall q (by simp [hq]))
    refine ⟨ex', F, ?_, h2, by rw [h3]; simp⟩
    simpa [foldAddPersons] using h1
  · intro m nm s0 ss acts h hall
    obtain ⟨hname, hdsl⟩ := hall s0 (by simp)
    have hnew : m.softwareSystem s0.data.name = none := by rw [hname]; exact h
    have hadd := (addSystem_spec m s0).1 hnew
    have hlook : (m.addSystem s0).1.softwareSystem nm =
        some { s0 with data := { s0.data with id := m.nextID } } := by
      rw [hadd]
      show (m.systems ++ [{ s0 with data := { s0.data with id := m.nextID } }]).find?
          (fun q : SoftwareSystem => q.data.name == nm) = _
      rw [List.find?_append, show m.systems.find? (fun q => q.data.name == nm) = none from h,
        Option.none_or]
      exact List.find?_cons_of_pos [] (by simp [hname])
    obtain ⟨ex', F, h1, h2, h3⟩ :=
      foldAddSystems_dsl ss (m.addSystem s0).1 nm _ (.leaf (acts s0)) (acts s0) acts hlook
        hdsl rfl (fun q hq => hall q (by simp [hq]))
    refine ⟨ex', F, ?_, h2, by rw [h3]; simp⟩
    simpa [foldAddSystems] using h1
  · intro m nm d0 ds acts h hall
    obtain ⟨hname, hdsl⟩ := hall d0 (by simp)
    have hnew : m.deploymentNode d0.data.name = none := by rw [hname]; exact h
    have hadd := (addDeploymentNode_spec m d0).1 hnew
    have hlook : (m.addDeploymentNode d0).1.deploymentNode nm =
        some { d0 with data := { d0.data with id := m.nextID } } := by
      rw [hadd]
      show (m.deploymentNodes ++ [{ d0 with data := { d0.data with id := m.nextID } }]).find?
          (fun q : DeploymentNode => q.data.name == nm) = _
      rw [List.find?_append,
        show m.deploymentNodes.find? (fun q => q.data.name == nm) = none from h,
        Option.none_or]
      exact List.find?_cons_of_pos [] (by simp [hname])
    obtain ⟨ex', F, h1, h2, h3⟩ :=
      foldAddDeploymentNodes_dsl ds (m.addDeploymentNode d0).1 nm _ (.leaf (acts d0))
        (acts d0) acts hlook hdsl rfl (fun q hq => hall q (by simp [hq]))
    refine ⟨ex', F, ?_, h2, by rw [h3]; simp⟩
    simpa [foldAddDeploymentNodes] using h1

/-- First declaration of `"W"` with deferred action 1. -/
def pW1 : Person := ⟨⟨0, "W", "", "", [], []⟩, some (.leaf [1])⟩

/-- Second declaration of `"W"` with deferred action 2. -/
def pW2 : Person := ⟨⟨0, "W", "", "", [], []⟩, some (.leaf [2])⟩

/-- Action labels of the `"W"` declarations. -/
def actsW (p : Person) : List Nat :=
  match p.dslFunc with
  | some (.leaf l) => l
  | _ => []

/-- Witness for the amended C3: declaring `"W"` twice with deferred actions
`[1]` then `[2]` leaves one person whose composed deferred function runs
`[1, 2]`. -/
theorem claim3_witness :
    ∃ ex' F, (foldAddPersons emptyModel [pW1, pW2]).person "W" = some ex' ∧
      ex'.dslFunc = some F ∧ F.run = .ok [1, 2] :=
  claim3_amended_dsl_composition.1 emptyModel "W" pW1 [pW2] actsW rfl
    (by
      intro q hq
      have hq' : q = pW1 ∨ q = pW2 := by simpa using hq
      rcases hq' with rfl | rfl
      · exact ⟨rfl, rfl⟩
      · exact ⟨rfl, rfl⟩)

/-! ### C10 — mirroring requires resolved container relationships -/

/-- State components untouched by `mapData`. -/
theorem rels_mapData (m : Model) (f : ElemData → ElemData) : (m.mapData f).rels = m.rels := rfl

/-- State components untouched by `mapData`. -/
theorem nextID_mapData (m : Model) (f : ElemData → ElemData) :
    (m.mapData f).nextID = m.nextID := rfl

/-- Systems after a `mapData`. -/
theorem systems_mapData (m : Model) (f : ElemData → ElemData) :
    (m.mapData f).systems = m.systems.map (SoftwareSystem.mapData f) := rfl

/-- Registering a relationship appends it. -/
theorem rels_registerRel (m : Model) (r : Relationship) :
    (m.registerRel r).rels = m.rels ++ [r] := rfl

/-- Registering a relationship advances the counter. -/
theorem nextID_registerRel (m : Model) (r : Relationship) :
    (m.registerRel r).nextID = m.nextID + 1 := rfl

/-- Registering a relationship leaves the trees alone. -/
theorem systems_registerRel (m : Model) (r : Relationship) :
    (m.registerRel r).systems = m.systems := rfl

/-- `mapData` does not change relationship lookups. -/
theorem getRel_mapData (m : Model) (f : ElemData → ElemData) (rid : Nat) :
    (m.mapData f).getRel rid = m.getRel rid := rfl

/-- A lookup in the extended registry hits either an old entry or the new
one. -/
theorem getRel_registerRel_some (m : Model) (r q : Relationship) (rid : Nat)
    (h : (m.registerRel r).getRel rid = some q) : m.getRel rid = some q ∨ q = r := by
  simp only [Model.getRel, rels_registerRel, List.find?_append] at h
  cases hf : m.rels.find? (fun x => x.id == rid) with
  | some w =>
    rw [hf] at h
    have h' : some w = some q := h
    cases h'
    exact Or.inl (by rw [Model.getRel, hf])
  | none =>
    rw [hf, Option.none_or] at h
    by_cases hp : (r.id == rid) = true
    · have h1 : List.find? (fun x => x.id == rid) [r] = some r := by
        simp [List.find?_cons, hp]
      rw [h1] at h
      exact Or.inr (by cases h; rfl)
    · have h1 : List.find? (fun x => x.id == rid) [r] = none := by
        simp [List.find?_cons, hp]
      rw [h1] at h
      cases h

/-- All relationship identifiers are below the identity counter (a basic
registry invariant: identifiers are assigned monotonically). -/
def IDsBounded (m : Model) : Prop := ∀ r ∈ m.rels, r.id < m.nextID

/-- Every relationship attached to any container has a resolved
destination. -/
def ContainerRelsOK (m : Model) : Prop :=
  ∀ s ∈ m.systems, ∀ c ∈ s.containers, ∀ rid ∈ c.data.relationships,
    ∀ r, m.getRel rid = some r → r.destination.isSome = true

/-- Decidable form of `ContainerRelsOK` on the initial model, used by the
claims. -/
def Model.containerRelsResolved (m : Model) : Bool :=
  m.systems.all fun s => s.containers.all fun c =>
    c.data.relationships.all fun rid =>
      ((m.getRel rid).map (fun r => r.destination.isSome)).getD true

/-- Decidable form of `IDsBounded`. -/
def Model.registryIDsBounded (m : Model) : Bool :=
  m.rels.all fun r => decide (r.id < m.nextID)

/-- The Bool form implies the Prop form. -/
theorem containerRelsResolved_ok (m : Model) (h : m.containerRelsResolved = true) :
    ContainerRelsOK m := by
  intro s hs c hc rid hrid r hr
  have h1 := List.all_eq_true.1 h s hs
  have h2 := List.all_eq_true.1 h1 c hc
  have h3 := List.all_eq_true.1 h2 rid hrid
  rw [hr] at h3
  simpa using h3

/-- The Bool form implies the Prop form. -/
theorem registryIDsBounded_ok (m : Model) (h : m.registryIDsBounded = true) :
    IDsBounded m := by
  intro r hr
  simpa using List.all_eq_true.1 h r hr

/-- `IDsBounded` survives registering a fresh relationship with the next
identifier. -/
theorem IDsBounded_registerRel (m : Model) (r : Relationship)
    (h : IDsBounded m) (hr : r.id = m.nextID) :
    IDsBounded (m.registerRel r) := by
  intro q hq
  rw [rels_registerRel] at hq
  rw [nextID_registerRel]
  rcases List.mem_append.1 hq with hq | hq
  · exact Nat.lt_succ_of_lt (h q hq)
  · simp only [List.mem_singleton] at hq
    subst hq
    omega

/-- `IDsBounded` ignores tree updates. -/
theorem IDsBounded_mapData (m : Model) (f : ElemData → ElemData)
    (h : IDsBounded m) : IDsBounded (m.mapData f) := by
  intro q hq
  rw [rels_mapData] at hq
  rw [nextID_mapData]
  exact h q hq

/-- `ContainerRelsOK` survives registering a relationship with a resolved
destination. -/
theorem ContainerRelsOK_registerRel (m : Model) (r : Relationship)
    (h : ContainerRelsOK m) (hr : r.destination.isSome = true) :
    ContainerRelsOK (m.registerRel r) := by
  intro s hs c hc rid hrid q hq
  rw [systems_registerRel] at hs
  rcases getRel_registerRel_some m r q rid hq with hq' | rfl
  · exact h s hs c hc rid hrid q hq'
  · exact hr

/-- `ContainerRelsOK` survives attaching an identifier that resolves (in
the current registry) to a relationship with a resolved destination. -/
theorem ContainerRelsOK_addRelToElem (m : Model) (eid rid' : Nat)
    (h : ContainerRelsOK m)
    (hnew : ∀ r, m.getRel rid' = some r → r.destination.isSome = true) :
    ContainerRelsOK (m.addRelToElem eid rid') := by
  intro s hs c hc rid hrid q hq
  rw [Model.addRelToElem, systems_mapData] at hs
  obtain ⟨s0, hs0, rfl⟩ := List.mem_map.1 hs
  have hc' : c ∈ s0.containers.map
      (Container.mapData fun e => if e.id == eid then e.addRel rid' else e) := hc
  obtain ⟨c0, hc0, rfl⟩ := List.mem_map.1 hc'
  have hq' : m.getRel rid = some q := hq
  have hrid' : rid ∈ (if c0.data.id == eid then c0.data.addRel rid' else c0.data).relationships :=
    hrid
  by_cases hid : (c0.data.id == eid) = true
  · rw [if_pos hid] at hrid'
    rcases List.mem_append.1 hrid' with hold | hnew'
    · exact h s0 hs0 c0 hc0 rid hold q hq'
    · simp only [List.mem_singleton] at hnew'
      subst hnew'
      exact hnew q hq'
  · rw [if_neg (by simpa using hid)] at hrid'
    exact h s0 hs0 c0 hc0 rid hrid' q hq'

/-- Membership extraction from a registry hit on a container. -/
theorem holder_container_mem (m : Model) (c : Container) (s : SoftwareSystem)
    (h : Holder.container c s ∈ m.allHolders) : s ∈ m.systems ∧ c ∈ s.containers := by
  rw [Model.allHolders] at h
  rcases List.mem_append.1 h with h | h
  · rcases List.mem_append.1 h with h | h
    · rcases List.mem_map.1 h with ⟨p, _, hp⟩
      cases hp
    · rcases List.mem_flatten.1 h with ⟨l, hl, hmem⟩
      rcases List.mem_map.1 hl with ⟨s0, hs0, rfl⟩
      rcases List.mem_cons.1 hmem with heq | hmem
      · cases heq
      · rcases List.mem_flatten.1 hmem with ⟨l2, hl2, hmem2⟩
        rcases List.mem_map.1 hl2 with ⟨c0, hc0, rfl⟩
        rcases List.mem_cons.1 hmem2 with heq | hmem3
        · cases heq
          exact ⟨hs0, hc0⟩
        · rcases List.mem_map.1 hmem3 with ⟨cm, _, hcm⟩
          cases hcm
  · rcases List.mem_flatten.1 h with ⟨l, hl, hmem⟩
    rcases List.mem_map.1 hl with ⟨d, _, rfl⟩
    rcases List.mem_cons.1 hmem with heq | hmem
    · cases heq
    · rcases List.mem_append.1 hmem with hm | hm
      · rcases List.mem_map.1 hm with ⟨ci, _, hci⟩
        cases hci
      · rcases List.mem_map.1 hm with ⟨e, _, he⟩
        cases he

/-- A `containerAt` hit names a container of some system of the model. -/
theorem containerAt_mem (m : Model) (id : Nat) (c : Container)
    (h : m.containerAt id = some c) : ∃ s ∈ m.systems, c ∈ s.containers := by
  rw [Model.containerAt] at h
  cases hl : m.lookupHolder id with
  | none => rw [hl] at h; cases h
  | some holder =>
    rw [hl] at h
    cases holder with
    | container cc ss =>
      injection h with h2
      subst h2
      obtain ⟨hs, hc⟩ := holder_container_mem m cc ss
        (List.mem_of_find?_eq_some
          (show m.allHolders.find? (fun x => x.data.id == id) = some (Holder.container cc ss)
            from hl))
      exact ⟨ss, hs, hc⟩
    | person p => cases h
    | softwareSystem s0 => cases h
    | component c0 ctr s0 => cases h
    | deploymentNode d => cases h
    | containerInstance ci => cases h
    | infrastructureNode e => cases h

/-- Bind of an error is that error. -/
theorem except_bind_error {ε α β : Type} (e : ε) (k : α → Except ε β) :
    (Except.error e >>= k) = Except.error e := rfl

/-- Bind of a success applies the continuation. -/
theorem except_bind_ok {ε α β : Type} (a : α) (k : α → Except ε β) :
    (Except.ok a >>= k) = k a := rfl

/-- Invariant preservation through `foldlM` in the `Except` monad, together
with avoidance of one particular error value. -/
theorem foldlM_except_inv {α σ : Type} (P : σ → Prop) (f : σ → α → Except GoPanic σ)
    (bad : GoPanic) (l : List α)
    (hf : ∀ s a, a ∈ l → P s → f s a ≠ .error bad ∧ ∀ s', f s a = .ok s' → P s') :
    ∀ (s : σ), P s →
      l.foldlM f s ≠ .error bad ∧ ∀ s', l.foldlM f s = .ok s' → P s' := by
  induction l with
  | nil =>
    intro s hs
    refine ⟨fun hc => Except.noConfusion hc, fun s' h' => ?_⟩
    injection h' with h'
    rwa [← h']
  | cons a l ih =>
    intro s hs
    rw [List.foldlM_cons]
    cases hfa : f s a with
    | error e =>
      rw [except_bind_error]
      refine ⟨fun hc => (hf s a (by simp) hs).1 (hfa.trans hc), fun s' h' => Except.noConfusion h'⟩
    | ok s1 =>
      rw [except_bind_ok]
      exact ih (fun st a' ha' hst => hf st a' (by simp [ha']) hst) s1
        ((hf s a (by simp) hs).2 s1 hfa)

/-- A registry hit returns a relationship with the looked-up identifier. -/
theorem getRel_id (m : Model) (rid : Nat) (q : Relationship)
    (h : m.getRel rid = some q) : q.id = rid := by
  have h0 := List.find?_some (show m.rels.find? (fun x => x.id == rid) = some q from h)
  simpa using h0

/-- A registry hit is a member of the registry. -/
theorem getRel_mem (m : Model) (rid : Nat) (q : Relationship)
    (h : m.getRel rid = some q) : q ∈ m.rels :=
  List.mem_of_find?_eq_some (show m.rels.find? (fun x => x.id == rid) = some q from h)

/-- The combined invariant carried through the mirroring pass, relative to
the container `c` whose relationships are being mirrored. -/
def MirrorInv (c : Container) (m : Model) : Prop :=
  IDsBounded m ∧ ContainerRelsOK m ∧
  ∀ rid ∈ c.data.relationships, ∀ r, m.getRel rid = some r → r.destination.isSome = true

/-- One derived-relationship append preserves the mirroring invariant. -/
theorem MirrorInv_step (c : Container) (acc : Model) (r : Relationship) (ciE dest : Nat)
    (h : MirrorInv c acc) :
    MirrorInv c
      ((acc.registerRel { r.dup ciE dest acc.nextID with linkedRelationshipID := some r.id }).addRelToElem
        ciE ({ r.dup ciE dest acc.nextID with linkedRelationshipID := some r.id }).id) := by
  obtain ⟨hb, hok, hc⟩ := h
  have hrcid : ({ r.dup ciE dest acc.nextID with linkedRelationshipID := some r.id } : Relationship).id =
      acc.nextID := rfl
  have hrcdest : ({ r.dup ciE dest acc.nextID with
      linkedRelationshipID := some r.id } : Relationship).destination.isSome = true := rfl
  have hb1 := IDsBounded_registerRel acc _ hb hrcid
  have hok1 := ContainerRelsOK_registerRel acc _ hok hrcdest
  have hfresh : ∀ q, (acc.registerRel
        { r.dup ciE dest acc.nextID with linkedRelationshipID := some r.id }).getRel
      acc.nextID = some q → q.destination.isSome = true := by
    intro q hq
    rcases getRel_registerRel_some acc _ q acc.nextID hq with hq' | rfl
    · have hid := getRel_id acc acc.nextID q hq'
      have hmem := getRel_mem acc acc.nextID q hq'
      have := hb q hmem
      omega
    · exact hrcdest
  refine ⟨IDsBounded_mapData _ _ hb1, ?_, ?_⟩
  · exact ContainerRelsOK_addRelToElem _ ciE acc.nextID hok1 hfresh
  · intro rid hrid q hq
    have hq' : (acc.registerRel
        { r.dup ciE dest acc.nextID with linkedRelationshipID := some r.id }).getRel rid =
        some q := hq
    rcases getRel_registerRel_some acc _ q rid hq' with hq'' | rfl
    · exact hc rid hrid q hq''
    · exact hrcdest

/-- The inner instance loop of the mirroring pass preserves the
invariant. -/
theorem mirror_inner_foldl (c : Container) (ciE : Nat) (r : Relationship) (dcid : Nat) :
    ∀ (insts : List ContainerInstance) (acc : Model), MirrorInv c acc →
      MirrorInv c (insts.foldl
        (fun a eci =>
          if eci.containerID == dcid then
            let rc := { r.dup ciE eci.data.id a.nextID with linkedRelationshipID := some r.id }
            (a.registerRel rc).addRelToElem ciE rc.id
          else a)
        acc) := by
  intro insts
  induction insts with
  | nil => intro acc h; exact h
  | cons eci insts ih =>
    intro acc h
    rw [List.foldl_cons]
    by_cases hg : (eci.containerID == dcid) = true
    · rw [if_pos hg]
      exact ih _ (MirrorInv_step c acc r ciE eci.data.id h)
    · rw [if_neg (by simpa using hg)]
      exact ih acc h

/-- `mirrorRel` cannot dereference a nil destination when the relationship
is resolved, and preserves the invariant. -/
theorem mirrorRel_inv (c : Container) (m : Model) (ciE : Nat) (r : Relationship)
    (h : MirrorInv c m) (hr : r.destination.isSome = true) :
    m.mirrorRel ciE r ≠ .error .nilDestination ∧
    ∀ m', m.mirrorRel ciE r = .ok m' → MirrorInv c m' := by
  rw [Model.mirrorRel]
  cases hd : r.destination with
  | none => rw [hd] at hr; cases hr
  | some destID =>
    simp only [hd]
    cases hcA : m.containerAt destID with
    | none =>
      simp only [hcA]
      exact ⟨fun hc => Except.noConfusion hc, fun m' h' => by injection h' with h'; rwa [← h']⟩
    | some dc =>
      simp only [hcA]
      refine ⟨fun hc => Except.noConfusion hc, fun m' h' => ?_⟩
      injection h' with h'
      rw [← h']
      exact mirror_inner_foldl c ciE r dc.data.id m.allInstances m h

/-- `mirrorInstance` never dereferences a nil destination when every
container relationship is resolved, and preserves both global
invariants. -/
theorem mirrorInstance_inv (m : Model) (cid : Nat)
    (h : IDsBounded m ∧ ContainerRelsOK m) :
    m.mirrorInstance cid ≠ .error .nilDestination ∧
    ∀ m', m.mirrorInstance cid = .ok m' → IDsBounded m' ∧ ContainerRelsOK m' := by
  rw [Model.mirrorInstance]
  cases hi : m.instanceAt cid with
  | none =>
    simp only [hi]
    exact ⟨fun hc => Except.noConfusion hc, fun m' h' => by injection h' with h'; rwa [← h']⟩
  | some ci =>
    simp only [hi]
    cases hcA : m.containerAt ci.containerID with
    | none =>
      simp only [hcA]
      refine ⟨fun hc => ?_, fun m' h' => Except.noConfusion h'⟩
      injection hc with hc
      exact GoPanic.noConfusion hc
    | some c =>
      simp only [hcA]
      obtain ⟨s, hs, hcmem⟩ := containerAt_mem m ci.containerID c hcA
      have hentry : MirrorInv c m :=
        ⟨h.1, h.2, fun rid hrid q hq => h.2 s hs c hcmem rid hrid q hq⟩
      have hstep : ∀ acc rid, rid ∈ c.data.relationships → MirrorInv c acc →
          (match acc.getRel rid with
            | none => Except.ok acc
            | some r => acc.mirrorRel cid r) ≠ .error .nilDestination ∧
          ∀ m', (match acc.getRel rid with
            | none => Except.ok acc
            | some r => acc.mirrorRel cid r) = .ok m' → MirrorInv c m' := by
        intro acc rid hrid hacc
        cases hg : acc.getRel rid with
        | none =>
          exact ⟨fun hc => Except.noConfusion hc,
            fun m' h' => by injection h' with h'; rwa [← h']⟩
        | some r =>
          exact mirrorRel_inv c acc cid r hacc (hacc.2.2 rid hrid r hg)
      have hfold := foldlM_except_inv (MirrorInv c)
        (fun acc rid =>
          match acc.getRel rid with
          | none => Except.ok acc
          | some r => acc.mirrorRel cid r)
        .nilDestination c.data.relationships
        (fun acc rid hrid hacc => hstep acc rid hrid hacc) m hentry
      exact ⟨hfold.1, fun m' h' => ⟨(hfold.2 m' h').1, (hfold.2 m' h').2.1⟩⟩

/-- Container `"A"` with an unresolved relationship, with a deployed
instance: the input on which the mirroring pass dereferences nil. -/
def mBadMirror : Model :=
  ⟨"", [],
    [⟨⟨1, "SA", "", "", [], []⟩, none, [⟨⟨2, "A", "", "", [], [30]⟩, []⟩]⟩],
    [⟨⟨9, "dn", "", "", [], []⟩, none, [⟨⟨10, "iA", "", "", [], []⟩, 2⟩], []⟩],
    false, [⟨30, 2, none, "B", "uses", "", [], none⟩], 31⟩

/-- C10: if every relationship attached to a container has a resolved
destination (and the registry is well formed: every registered identifier
is below the identity counter), the container-instance mirroring pass of
`Finalize` never dereferences a nil destination; without that
precondition it does — on `mBadMirror`, whose container relationship kept
its unresolved path, the pass dereferences `r.Destination` and panics. -/
theorem claim10_mirror_requires_resolved_destinations :
    (∀ m : Model, m.registryIDsBounded = true → m.containerRelsResolved = true →
      m.finalizeMirror ≠ .error .nilDestination) ∧
    mBadMirror.finalizeMirror = .error .nilDestination := by
  constructor
  · intro m hids hok
    have h0 : IDsBounded m ∧ ContainerRelsOK m :=
      ⟨registryIDsBounded_ok m hids, containerRelsResolved_ok m hok⟩
    exact (foldlM_except_inv (fun st => IDsBounded st ∧ ContainerRelsOK st)
      Model.mirrorInstance .nilDestination (m.allInstances.map (fun ci => ci.data.id))
      (fun st a _ hst => mirrorInstance_inv st a hst) m h0).1
  · rfl

/-- Containers `"A"`, `"B"` in different systems with a resolved `A → B`
relationship, instances `iA1`, `iA2` of `A` and `iB1` of `B`. -/
def mMirrorAB : Model :=
  ⟨"", [],
    [⟨⟨1, "SA", "", "", [], []⟩, none, [⟨⟨2, "A", "", "", [], [30]⟩, []⟩]⟩,
     ⟨⟨3, "SB", "", "", [], []⟩, none, [⟨⟨4, "B", "", "", [], []⟩, []⟩]⟩],
    [⟨⟨9, "dn1", "", "", [], []⟩, none,
      [⟨⟨10, "iA1", "", "", [], []⟩, 2⟩, ⟨⟨11, "iA2", "", "", [], []⟩, 2⟩,
       ⟨⟨12, "iB1", "", "", [], []⟩, 4⟩], []⟩],
    false, [⟨30, 2, some 4, "", "uses", "tech", ["t1"], none⟩], 31⟩

/-- Witness for C10: on the fully resolved `mMirrorAB`, the mirroring pass
avoids the nil-destination panic. -/
theorem claim10_witness :
    mMirrorAB.registryIDsBounded = true ∧ mMirrorAB.containerRelsResolved = true ∧
    mMirrorAB.finalizeMirror ≠ .error .nilDestination :=
  ⟨rfl, rfl,
    claim10_mirror_requires_resolved_destinations.1 mMirrorAB rfl rfl⟩

/-! ### C5 — container-instance relationship mirroring -/

/-- Invariant preservation through `foldlM` in the `Except` monad (no
error-avoidance component). -/
theorem foldlM_except_pres {α σ : Type} (P : σ → Prop) (f : σ → α → Except GoPanic σ)
    (l : List α)
    (hf : ∀ s a, a ∈ l → P s → ∀ s', f s a = .ok s' → P s') :
    ∀ s, P s → ∀ s', l.foldlM f s = .ok s' → P s' := by
  induction l with
  | nil =>
    intro s hs s' h'
    injection h' with h'
    rwa [← h']
  | cons a l ih =>
    intro s hs s' h'
    rw [List.foldlM_cons] at h'
    cases hfa : f s a with
    | error e => rw [hfa, except_bind_error] at h'; exact Except.noConfusion h'
    | ok s1 =>
      rw [hfa, except_bind_ok] at h'
      exact ih (fun st a' ha' hst => hf st a' (by simp [ha']) hst) s1
        ((hf s a (by simp) hs) s1 hfa) s' h'

/-- The element identifiers of the model's container instances, in
declaration order. -/
def instIDs (m : Model) : List Nat := m.allInstances.map (fun ci => ci.data.id)

/-- Identifier-preserving data updates do not change the instance
identifier list. -/
theorem instIDs_mapData (m : Model) (f : ElemData → ElemData) (hf : ∀ e, (f e).id = e.id) :
    instIDs (m.mapData f) = instIDs m := by
  show (((m.deploymentNodes.map (DeploymentNode.mapData f)).map
      (fun d => d.instances)).flatten).map (fun ci => ci.data.id) =
    ((m.deploymentNodes.map (fun d => d.instances)).flatten).map (fun ci => ci.data.id)
  induction m.deploymentNodes with
  | nil => rfl
  | cons d nodes ih =>
    simp only [List.map_cons, List.flatten_cons, List.map_append, ih]
    congr 1
    simp [DeploymentNode.mapData, ContainerInstance.mapData, List.map_map, Function.comp, hf]

/-- Registering a relationship does not change the instance identifier
list. -/
theorem instIDs_registerRel (m : Model) (r : Relationship) :
    instIDs (m.registerRel r) = instIDs m := rfl

/-- The append-performed-by-`addRelToElem` update preserves element
identifiers. -/
theorem addRel_if_preserves_id (eid rid : Nat) :
    ∀ e : ElemData, ((fun e => if e.id == eid then e.addRel rid else e) e).id = e.id := by
  intro e
  by_cases h : (e.id == eid) = true
  · simp only [h, if_true]; rfl
  · simp only [h, Bool.false_eq_true, if_false]

/-- Shape of the state reachable from `m0` by the mirroring pass: the
instance identifiers are unchanged and the relationship registry has only
grown, every appended relationship being a copy of a registered
relationship's description/technology/tags, carrying the origin
back-reference, and connecting two container-instance elements of the
original model. -/
def MirrorShape (m0 m : Model) : Prop :=
  instIDs m = instIDs m0 ∧
  ∃ Δ, m.rels = m0.rels ++ Δ ∧ ∀ rc ∈ Δ,
    (∃ r ∈ m.rels, rc.description = r.description ∧ rc.technology = r.technology ∧
      rc.tags = r.tags ∧ rc.linkedRelationshipID = some r.id) ∧
    rc.sourceID ∈ instIDs m0 ∧ ∃ d ∈ instIDs m0, rc.destination = some d

/-- A single derived-relationship append preserves `MirrorShape`. -/
theorem MirrorShape_step (m0 acc : Model) (r : Relationship) (ciE dest : Nat)
    (h : MirrorShape m0 acc) (hr : r ∈ acc.rels)
    (hsrc : ciE ∈ instIDs m0) (hdst : dest ∈ instIDs m0) :
    MirrorShape m0
      ((acc.registerRel { r.dup ciE dest acc.nextID with linkedRelationshipID := some r.id }).addRelToElem
        ciE ({ r.dup ciE dest acc.nextID with linkedRelationshipID := some r.id }).id) := by
  obtain ⟨hi, Δ, hΔ, hprops⟩ := h
  constructor
  · rw [Model.addRelToElem, instIDs_mapData _ _ (addRel_if_preserves_id _ _),
      instIDs_registerRel]
    exact hi
  · refine ⟨Δ ++ [{ r.dup ciE dest acc.nextID with linkedRelationshipID := some r.id }], ?_, ?_⟩
    · show (acc.registerRel _).rels = _
      rw [rels_registerRel, hΔ, List.append_assoc]
    · intro rc hrc
      rcases List.mem_append.1 hrc with hrc | hrc
      · obtain ⟨⟨q, hq, hprops'⟩, hs, hd⟩ := hprops rc hrc
        exact ⟨⟨q, by
          show q ∈ (acc.registerRel _).rels
          rw [rels_registerRel]
          exact List.mem_append.2 (Or.inl hq), hprops'⟩, hs, hd⟩
      · simp only [List.mem_singleton] at hrc
        subst hrc
        refine ⟨⟨r, ?_, rfl, rfl, rfl, rfl⟩, hsrc, dest, hdst, rfl⟩
        show r ∈ (acc.registerRel _).rels
        rw [rels_registerRel]
        exact List.mem_append.2 (Or.inl hr)

/-- The inner instance loop of `mirrorRel` preserves `MirrorShape`. -/
theorem mirrorShape_inner_foldl (m0 : Model) (ciE : Nat) (r : Relationship) (dcid : Nat)
    (hsrc : ciE ∈ instIDs m0) :
    ∀ (insts : List ContainerInstance) (acc : Model),
      (∀ eci ∈ insts, eci.data.id ∈ instIDs m0) →
      MirrorShape m0 acc → r ∈ acc.rels →
      MirrorShape m0 (insts.foldl
        (fun a eci =>
          if eci.containerID == dcid then
            let rc := { r.dup ciE eci.data.id a.nextID with linkedRelationshipID := some r.id }
            (a.registerRel rc).addRelToElem ciE rc.id
          else a)
        acc) := by
  intro insts
  induction insts with
  | nil => intro acc _ h _; exact h
  | cons eci insts ih =>
    intro acc hids h hr
    rw [List.foldl_cons]
    by_cases hg : (eci.containerID == dcid) = true
    · rw [if_pos hg]
      refine ih _ (fun x hx => hids x (by simp [hx])) (MirrorShape_step m0 acc r ciE eci.data.id h hr hsrc (hids eci (by simp))) ?_
      show r ∈ ((acc.registerRel _).addRelToElem _ _).rels
      rw [Model.addRelToElem, rels_mapData, rels_registerRel]
      exact List.mem_append.2 (Or.inl hr)
    · rw [if_neg (by simpa using hg)]
      exact ih acc (fun x hx => hids x (by simp [hx])) h hr

/-- `mirrorRel` preserves `MirrorShape`. -/
theorem mirrorRel_shape (m0 : Model) (m : Model) (ciE : Nat) (r : Relationship)
    (h : MirrorShape m0 m) (hr : r ∈ m.rels) (hsrc : ciE ∈ instIDs m0) :
    ∀ m', m.mirrorRel ciE r = .ok m' → MirrorShape m0 m' := by
  intro m' hm
  rw [Model.mirrorRel] at hm
  cases hd : r.destination with
  | none => rw [hd] at hm; exact Except.noConfusion hm
  | some destID =>
    rw [hd] at hm
    cases hcA : m.containerAt destID with
    | none =>
      simp only [hcA] at hm
      injection hm with hm
      rwa [← hm]
    | some dc =>
      simp only [hcA] at hm
      injection hm with hm
      rw [← hm]
      refine mirrorShape_inner_foldl m0 ciE r dc.data.id hsrc m.allInstances m ?_ h hr
      intro eci heci
      have : eci.data.id ∈ instIDs m := List.mem_map_of_mem _ heci
      rwa [h.1] at this

/-- `mirrorInstance` preserves `MirrorShape`. -/
theorem mirrorInstance_shape (m0 : Model) (m : Model) (cid : Nat)
    (h : MirrorShape m0 m) (hsrc : cid ∈ instIDs m0) :
    ∀ m', m.mirrorInstance cid = .ok m' → MirrorShape m0 m' := by
  intro m' hm
  rw [Model.mirrorInstance] at hm
  cases hi : m.instanceAt cid with
  | none =>
    simp only [hi] at hm
    injection hm with hm
    rwa [← hm]
  | some ci =>
    simp only [hi] at hm
    cases hcA : m.containerAt ci.containerID with
    | none => simp only [hcA] at hm; exact Except.noConfusion hm
    | some c =>
      simp only [hcA] at hm
      refine foldlM_except_pres (MirrorShape m0)
        (fun acc rid =>
          match acc.getRel rid with
          | none => Except.ok acc
          | some r => acc.mirrorRel cid r)
        c.data.relationships ?_ m h m' hm
      intro acc rid _ hacc m'' hm''
      cases hg : acc.getRel rid with
      | none =>
        simp only [hg] at hm''
        injection hm'' with hm''
        rwa [← hm'']
      | some r =>
        simp only [hg] at hm''
        exact mirrorRel_shape m0 acc cid r hacc (getRel_mem acc rid r hg) hsrc m'' hm''

/-- The derived relationship `iA1 → iB1` of the mirroring scenario. -/
def rcAB1 : Relationship := ⟨31, 10, some 12, "", "uses", "tech", ["t1"], some 30⟩

/-- The derived relationship `iA2 → iB1` of the mirroring scenario. -/
def rcAB2 : Relationship := ⟨32, 11, some 12, "", "uses", "tech", ["t1"], some 30⟩

/-- The mirroring scenario after `Finalize`'s first pass: exactly the two
derived relationships have been appended, attached to `iA1` and `iA2`. -/
def mMirrorABFinal : Model :=
  ⟨"", [],
    [⟨⟨1, "SA", "", "", [], []⟩, none, [⟨⟨2, "A", "", "", [], [30]⟩, []⟩]⟩,
     ⟨⟨3, "SB", "", "", [], []⟩, none, [⟨⟨4, "B", "", "", [], []⟩, []⟩]⟩],
    [⟨⟨9, "dn1", "", "", [], []⟩, none,
      [⟨⟨10, "iA1", "", "", [], [31]⟩, 2⟩, ⟨⟨11, "iA2", "", "", [], [32]⟩, 2⟩,
       ⟨⟨12, "iB1", "", "", [], []⟩, 4⟩], []⟩],
    false, [⟨30, 2, some 4, "", "uses", "tech", ["t1"], none⟩, rcAB1, rcAB2], 33⟩

/-- C5: every relationship appended by the mirroring pass is a derived
copy (description/technology/tags) of a registered relationship, carries
the origin back-reference, and connects two container-instance elements;
and on the spec's scenario (containers `A → B`, instances `iA1`, `iA2` of
`A` and `iB1` of `B`) the pass produces exactly the two derived
relationships `iA1 → iB1` and `iA2 → iB1`, appended to the respective
instances' relationship lists. -/
theorem claim5_instance_mirroring :
    (∀ m m' : Model, m.finalizeMirror = .ok m' → MirrorShape m m') ∧
    mMirrorAB.finalizeMirror = .ok mMirrorABFinal ∧
    mMirrorABFinal.rels = mMirrorAB.rels ++ [rcAB1, rcAB2] ∧
    rcAB1.linkedRelationshipID = some 30 ∧ rcAB2.linkedRelationshipID = some 30 := by
  refine ⟨?_, by rfl, rfl, rfl, rfl⟩
  intro m m' hm
  rw [Model.finalizeMirror] at hm
  have h0 : MirrorShape m m := ⟨rfl, [], by simp, by simp⟩
  refine foldlM_except_pres (MirrorShape m) Model.mirrorInstance
    (m.allInstances.map (fun ci => ci.data.id)) ?_ m h0 m' hm
  intro acc cid hcid hacc m'' hm''
  exact mirrorInstance_shape m acc cid hacc hcid m'' hm''

/-- Witness for C5's general part, at the mirroring scenario. -/
theorem claim5_witness : MirrorShape mMirrorAB mMirrorABFinal :=
  claim5_instance_mirroring.1 mMirrorAB mMirrorABFinal (by rfl)

/-! ### Structural lemmas: `mapData` and the registry view -/

/-- Applying an element-data update inside a registry entry. -/
def Holder.mapData (f : ElemData → ElemData) : Holder → Holder
  | .person p => .person (p.mapData f)
  | .softwareSystem s => .softwareSystem (s.mapData f)
  | .container c s => .container (c.mapData f) (s.mapData f)
  | .component c ctr s => .component (c.mapData f) (ctr.mapData f) (s.mapData f)
  | .deploymentNode d => .deploymentNode (d.mapData f)
  | .containerInstance ci => .containerInstance (ci.mapData f)
  | .infrastructureNode e => .infrastructureNode (f e)

/-- Unfolding `Holder.mapData` on each constructor. -/
theorem Holder.mapData_person (f : ElemData → ElemData) (p : Person) :
    Holder.mapData f (.person p) = .person (p.mapData f) := rfl

/-- Unfolding `Holder.mapData` on each constructor. -/
theorem Holder.mapData_softwareSystem (f : ElemData → ElemData) (s : SoftwareSystem) :
    Holder.mapData f (.softwareSystem s) = .softwareSystem (s.mapData f) := rfl

/-- Unfolding `Holder.mapData` on each constructor. -/
theorem Holder.mapData_container (f : ElemData → ElemData) (c : Container) (s : SoftwareSystem) :
    Holder.mapData f (.container c s) = .container (c.mapData f) (s.mapData f) := rfl

/-- Unfolding `Holder.mapData` on each constructor. -/
theorem Holder.mapData_component (f : ElemData → ElemData) (c : Component) (ctr : Container)
    (s : SoftwareSystem) :
    Holder.mapData f (.component c ctr s) = .component (c.mapData f) (ctr.mapData f) (s.mapData f) := rfl

/-- Unfolding `Holder.mapData` on each constructor. -/
theorem Holder.mapData_deploymentNode (f : ElemData → ElemData) (d : DeploymentNode) :
    Holder.mapData f (.deploymentNode d) = .deploymentNode (d.mapData f) := rfl

/-- Unfolding `Holder.mapData` on each constructor. -/
theorem Holder.mapData_containerInstance (f : ElemData → ElemData) (ci : ContainerInstance) :
    Holder.mapData f (.containerInstance ci) = .containerInstance (ci.mapData f) := rfl

/-- Unfolding `Holder.mapData` on each constructor. -/
theorem Holder.mapData_infrastructureNode (f : ElemData → ElemData) (e : ElemData) :
    Holder.mapData f (.infrastructureNode e) = .infrastructureNode (f e) := rfl

/-- The data of a mapped entry is the mapped data. -/
theorem Holder.data_mapData (f : ElemData → ElemData) (h : Holder) :
    (Holder.mapData f h).data = f h.data := by
  cases h <;> rfl

/-- `find?` through a `map`, with a pointwise-compatible predicate. -/
theorem find?_map_pred {α β : Type} (g : α → β) (p : β → Bool) (q : α → Bool) (l : List α)
    (h : ∀ a, p (g a) = q a) : (l.map g).find? p = (l.find? q).map g := by
  induction l with
  | nil => rfl
  | cons a l ih =>
    rw [List.map_cons, List.find?_cons, List.find?_cons, h a]
    cases hq : q a <;> simp [hq, ih]

/-- `systemHolders` commutes with `mapData`. -/
theorem systemHolders_mapData (f : ElemData → ElemData) (s : SoftwareSystem) :
    systemHolders (SoftwareSystem.mapData f s) = (systemHolders s).map (Holder.mapData f) := by
  rw [systemHolders, systemHolders, List.map_cons]
  congr 1
  show ((s.containers.map (Container.mapData f)).map _).flatten = _
  rw [List.map_flatten, List.map_map, List.map_map]
  congr 1
  apply List.map_congr_left
  intro c _
  show Holder.container (c.mapData f) (s.mapData f)
      :: (c.components.map (Component.mapData f)).map _ = _
  rw [List.map_map]
  simp [Function.comp_def, Holder.mapData_container, Holder.mapData_component]

/-- `nodeHolders` commutes with `mapData`. -/
theorem nodeHolders_mapData (f : ElemData → ElemData) (d : DeploymentNode) :
    nodeHolders (DeploymentNode.mapData f d) = (nodeHolders d).map (Holder.mapData f) := by
  rw [nodeHolders, nodeHolders, List.map_cons, List.map_append, List.map_map, List.map_map]
  simp [DeploymentNode.mapData, Function.comp_def, Holder.mapData_deploymentNode,
    Holder.mapData_containerInstance, Holder.mapData_infrastructureNode]

/-- The registry view of a `mapData` update. -/
theorem allHolders_mapData (m : Model) (f : ElemData → ElemData) :
    (m.mapData f).allHolders = m.allHolders.map (Holder.mapData f) := by
  show (m.people.map (Person.mapData f)).map Holder.person
      ++ ((m.systems.map (SoftwareSystem.mapData f)).map systemHolders).flatten
      ++ ((m.deploymentNodes.map (DeploymentNode.mapData f)).map nodeHolders).flatten = _
  rw [Model.allHolders, List.map_append, List.map_append, List.map_flatten, List.map_flatten]
  congr 1
  congr 1
  · rw [List.map_map]
    simp [Function.comp_def, Holder.mapData_person]
  · rw [List.map_map, List.map_map]
    congr 1
    apply List.map_congr_left
    intro s _
    exact systemHolders_mapData f s
  · rw [List.map_map, List.map_map]
    congr 1
    apply List.map_congr_left
    intro d _
    exact nodeHolders_mapData f d

/-- Registry lookups through an identifier-preserving `mapData`. -/
theorem lookupHolder_mapData (m : Model) (f : ElemData → ElemData) (x : Nat)
    (hf : ∀ e, (f e).id = e.id) :
    (m.mapData f).lookupHolder x = (m.lookupHolder x).map (Holder.mapData f) := by
  rw [Model.lookupHolder, allHolders_mapData, Model.lookupHolder]
  exact find?_map_pred (Holder.mapData f) _ _ m.allHolders
    (fun h => by rw [Holder.data_mapData, hf])

/-- Element-data lookups through an identifier-preserving `mapData`. -/
theorem getElemData_mapData (m : Model) (f : ElemData → ElemData) (x : Nat)
    (hf : ∀ e, (f e).id = e.id) :
    (m.mapData f).getElemData x = (m.getElemData x).map f := by
  rw [Model.getElemData, lookupHolder_mapData m f x hf, Model.getElemData]
  cases m.lookupHolder x with
  | none => rfl
  | some h => simp [Holder.data_mapData]

/-- An element-data hit carries the looked-up identifier. -/
theorem getElemData_id (m : Model) (x : Nat) (e : ElemData)
    (h : m.getElemData x = some e) : e.id = x := by
  rw [Model.getElemData] at h
  cases hl : m.lookupHolder x with
  | none => rw [hl] at h; cases h
  | some holder =>
    rw [hl] at h
    injection h with h
    have h0 := List.find?_some
      (show m.allHolders.find? (fun y => y.data.id == x) = some holder from hl)
    rw [← h]
    simpa using h0

/-- Registering a relationship does not move elements. -/
theorem getElemData_registerRel (m : Model) (r : Relationship) (x : Nat) :
    (m.registerRel r).getElemData x = m.getElemData x := rfl

/-- `elemRelIDs` ignores the relationship registry. -/
theorem elemRelIDs_registerRel (m : Model) (r : Relationship) (x : Nat) :
    (m.registerRel r).elemRelIDs x = m.elemRelIDs x := rfl

/-- Appending a relationship identifier to an element extends exactly its
identifier list. -/
theorem elemRelIDs_addRelToElem_self (m : Model) (x rid : Nat)
    (h : (m.getElemData x).isSome = true) :
    (m.addRelToElem x rid).elemRelIDs x = m.elemRelIDs x ++ [rid] := by
  rw [Model.elemRelIDs, Model.elemRelIDs, Model.addRelToElem,
    getElemData_mapData m _ x (addRel_if_preserves_id x rid)]
  cases he : m.getElemData x with
  | none => rw [he] at h; cases h
  | some e =>
    have hid : e.id = x := getElemData_id m x e he
    simp [he, hid, ElemData.addRel]

/-- `addRelToElem` keeps every element present. -/
theorem getElemData_isSome_addRelToElem (m : Model) (x rid y : Nat)
    (h : (m.getElemData y).isSome = true) :
    ((m.addRelToElem x rid).getElemData y).isSome = true := by
  rw [Model.addRelToElem, getElemData_mapData m _ y (addRel_if_preserves_id x rid)]
  cases he : m.getElemData y with
  | none => rw [he] at h; cases h
  | some e => simp

/-! ### C6 — deduplication of implied relationships -/

/-- What a clean (no-hit, no-panic) duplicate scan tells us about every
resolvable identifier it passed. -/
theorem scanExisting_false_facts (m : Model) (dest : Nat) (desc : String) :
    ∀ l, m.scanExisting dest desc l = .ok false →
      ∀ rid ∈ l, ∀ q, m.getRel rid = some q →
        q.destination.isSome = true ∧ ¬(q.destination = some dest ∧ q.description = desc) := by
  intro l
  induction l with
  | nil =>
    intro _ rid hrid
    exact absurd hrid (List.not_mem_nil rid)
  | cons a l ih =>
    intro h rid hrid q hq
    simp only [Model.scanExisting] at h
    cases hga : m.getRel a with
    | none =>
      simp only [hga] at h
      rcases List.mem_cons.1 hrid with rfl | hrid'
      · rw [hga] at hq; cases hq
      · exact ih h rid hrid' q hq
    | some rr =>
      simp only [hga] at h
      cases hd : rr.destination with
      | none =>
        simp only [hd] at h
        exact Except.noConfusion h
      | some dd =>
        simp only [hd] at h
        by_cases hm : (dd == dest && rr.description == desc) = true
        · rw [if_pos hm] at h
          injection h with h
          cases h
        · rw [if_neg (by simpa using hm)] at h
          rcases List.mem_cons.1 hrid with rfl | hrid'
          · rw [hga] at hq
            injection hq with hq
            subst hq
            refine ⟨by rw [hd]; rfl, ?_⟩
            rintro ⟨h1, h2⟩
            rw [hd] at h1
            injection h1 with h1
            exact hm (by simp [h1, h2])
          · exact ih h rid hrid' q hq

/-- The duplicate scan succeeds with a hit when no scanned identifier can
panic and some scanned identifier matches. -/
theorem scanExisting_true_of (m : Model) (dest : Nat) (desc : String) :
    ∀ l, (∀ rid ∈ l, ∀ q, m.getRel rid = some q → q.destination.isSome = true) →
      (∃ rid ∈ l, ∃ q, m.getRel rid = some q ∧ q.destination = some dest ∧ q.description = desc) →
      m.scanExisting dest desc l = .ok true := by
  intro l
  induction l with
  | nil =>
    intro _ hex
    simp at hex
  | cons a l ih =>
    intro hsafe hex
    simp only [Model.scanExisting]
    cases hga : m.getRel a with
    | none =>
      simp only [hga]
      apply ih (fun rid hrid q hq => hsafe rid (by simp [hrid]) q hq)
      rcases hex with ⟨rid, hrid, q, hq, hrest⟩
      rcases List.mem_cons.1 hrid with rfl | hrid'
      · rw [hga] at hq; cases hq
      · exact ⟨rid, hrid', q, hq, hrest⟩
    | some rr =>
      simp only [hga]
      have hA := hsafe a (by simp) rr hga
      cases hd : rr.destination with
      | none => rw [hd] at hA; cases hA
      | some dd =>
        simp only [hd]
        by_cases hm : (dd == dest && rr.description == desc) = true
        · rw [if_pos hm]
        · rw [if_neg (by simpa using hm)]
          apply ih (fun rid hrid q hq => hsafe rid (by simp [hrid]) q hq)
          rcases hex with ⟨rid, hrid, q, hq, hq1, hq2⟩
          rcases List.mem_cons.1 hrid with rfl | hrid'
          · rw [hga] at hq
            injection hq with hq
            subst hq
            rw [hd] at hq1
            injection hq1 with hq1
            exact absurd (by simp [hq1, hq2]) hm
          · exact ⟨rid, hrid', q, hq, hq1, hq2⟩

/-- A scan hit makes `addMissingRelationships` return the model
unchanged. -/
theorem addMissing_skip (fuel : Nat) (m : Model) (src dest : Nat) (ex : Relationship)
    (h : m.scanExisting dest ex.description (m.elemRelIDs src) = .ok true) :
    addMissingRelationships (fuel + 1) m src dest ex = .ok m := by
  simp [addMissingRelationships, h, except_bind_ok]

/-- A hit in the prefix survives appending. -/
theorem find?_append_some {α : Type} (p : α → Bool) (l1 l2 : List α) (w : α)
    (h : l1.find? p = some w) : (l1 ++ l2).find? p = some w := by
  rw [List.find?_append, h]
  rfl

/-- A miss in the prefix defers to the suffix. -/
theorem find?_append_none {α : Type} (p : α → Bool) (l1 l2 : List α)
    (h : l1.find? p = none) : (l1 ++ l2).find? p = l2.find? p := by
  rw [List.find?_append, h, Option.none_or]

/-- No registered relationship carries an identifier at or above the
counter. -/
theorem rels_find?_none_of_bounded (m : Model) (rid : Nat) (h : IDsBounded m)
    (hge : m.nextID ≤ rid) : m.rels.find? (fun x => x.id == rid) = none := by
  apply List.find?_eq_none.2
  intro q hq
  have := h q hq
  simp only [beq_iff_eq]
  omega

/-- Registry content after the append step. -/
theorem missingAppend_rels (m : Model) (src dest : Nat) (ex : Relationship) :
    (m.missingAppend src dest ex).rels = m.rels ++ [ex.dup src dest m.nextID] := by
  rw [Model.missingAppend, Model.addRelToElem, rels_mapData, rels_registerRel]

/-- Counter after the append step. -/
theorem missingAppend_nextID (m : Model) (src dest : Nat) (ex : Relationship) :
    (m.missingAppend src dest ex).nextID = m.nextID + 1 := by
  rw [Model.missingAppend, Model.addRelToElem, nextID_mapData, nextID_registerRel]

/-- The source element's identifier list after the append step. -/
theorem missingAppend_elemRelIDs (m : Model) (src dest : Nat) (ex : Relationship)
    (hsrc : (m.getElemData src).isSome = true) :
    (m.missingAppend src dest ex).elemRelIDs src = m.elemRelIDs src ++ [m.nextID] := by
  rw [Model.missingAppend]
  have h1 := elemRelIDs_addRelToElem_self (m.registerRel (ex.dup src dest m.nextID)) src
    (ex.dup src dest m.nextID).id
    (by rw [getElemData_registerRel]; exact hsrc)
  rw [h1, elemRelIDs_registerRel]
  rfl

/-- Identifier bounds survive the append step. -/
theorem missingAppend_bounded (m : Model) (src dest : Nat) (ex : Relationship)
    (hb : IDsBounded m) : IDsBounded (m.missingAppend src dest ex) := by
  rw [Model.missingAppend, Model.addRelToElem]
  exact IDsBounded_mapData _ _ (IDsBounded_registerRel m _ hb rfl)

/-- Source presence survives the append step. -/
theorem missingAppend_srcSome (m : Model) (src dest : Nat) (ex : Relationship)
    (hsrc : (m.getElemData src).isSome = true) :
    ((m.missingAppend src dest ex).getElemData src).isSome = true := by
  rw [Model.missingAppend]
  exact getElemData_isSome_addRelToElem (m.registerRel _) src _ src
    (by rw [getElemData_registerRel]; exact hsrc)

/-- Growth relative to a lower bound: relationships and source identifiers
are only appended, every appended one lying strictly above the bound, and
every appended relationship has a resolved destination. -/
def GrowStrict (bnd src : Nat) (m1 m2 : Model) : Prop :=
  (∃ Δ, m2.rels = m1.rels ++ Δ ∧ ∀ q ∈ Δ, bnd < q.id ∧ q.destination.isSome = true) ∧
  (∃ ids, m2.elemRelIDs src = m1.elemRelIDs src ++ ids ∧ ∀ rid ∈ ids, bnd < rid)

/-- `GrowStrict` is reflexive. -/
theorem GrowStrict_refl (bnd src : Nat) (m : Model) : GrowStrict bnd src m m :=
  ⟨⟨[], by simp, by simp⟩, ⟨[], by simp, by simp⟩⟩

/-- `GrowStrict` composes. -/
theorem GrowStrict_trans (bnd src : Nat) (a b c : Model)
    (h1 : GrowStrict bnd src a b) (h2 : GrowStrict bnd src b c) : GrowStrict bnd src a c := by
  obtain ⟨⟨Δ1, hr1, hq1⟩, ⟨i1, he1, hi1⟩⟩ := h1
  obtain ⟨⟨Δ2, hr2, hq2⟩, ⟨i2, he2, hi2⟩⟩ := h2
  refine ⟨⟨Δ1 ++ Δ2, ?_, ?_⟩, ⟨i1 ++ i2, ?_, ?_⟩⟩
  · rw [hr2, hr1, List.append_assoc]
  · intro q hq
    rcases List.mem_append.1 hq with hq | hq
    · exact hq1 q hq
    · exact hq2 q hq
  · rw [he2, he1, List.append_assoc]
  · intro rid hrid
    rcases List.mem_append.1 hrid with hrid | hrid
    · exact hi1 rid hrid
    · exact hi2 rid hrid

/-- The deduplicated-append recursion only grows the model: bounds kept,
source kept, counter monotone, and either the scan hit (no change) or the
scan missed and exactly the duplicated relationship — followed by
strictly fresher ones — was appended to the registry and to the source's
identifier list. -/
theorem addMissing_growth :
    ∀ (fuel : Nat) (m : Model) (src dest : Nat) (ex : Relationship) (m₁ : Model),
      IDsBounded m → (m.getElemData src).isSome = true →
      addMissingRelationships fuel m src dest ex = .ok m₁ →
      IDsBounded m₁ ∧ (m₁.getElemData src).isSome = true ∧ m.nextID ≤ m₁.nextID ∧
      ((m₁ = m ∧ m.scanExisting dest ex.description (m.elemRelIDs src) = .ok true) ∨
       (m.scanExisting dest ex.description (m.elemRelIDs src) = .ok false ∧
        ∃ Δ ids,
          m₁.rels = m.rels ++ (ex.dup src dest m.nextID) :: Δ ∧
          (∀ q ∈ Δ, m.nextID < q.id ∧ q.destination.isSome = true) ∧
          m₁.elemRelIDs src = m.elemRelIDs src ++ m.nextID :: ids ∧
          (∀ rid ∈ ids, m.nextID < rid))) := by
  intro fuel
  induction fuel with
  | zero =>
    intro m src dest ex m₁ _ _ h
    exact Except.noConfusion h
  | succ fuel ih =>
    intro m src dest ex m₁ hb hsrc h
    simp only [addMissingRelationships] at h
    generalize hscan : m.scanExisting dest ex.description (m.elemRelIDs src) = scanRes at h
    cases scanRes with
    | error e =>
      rw [except_bind_error] at h
      exact Except.noConfusion h
    | ok found =>
      rw [except_bind_ok] at h
      cases found with
      | true =>
        rw [if_pos rfl] at h
        injection h with h
        subst h
        exact ⟨hb, hsrc, Nat.le_refl _, Or.inl ⟨rfl, rfl⟩⟩
      | false =>
        rw [if_neg (by simp)] at h
        have hm1rels := missingAppend_rels m src dest ex
        have hm1next := missingAppend_nextID m src dest ex
        have hm1elem := missingAppend_elemRelIDs m src dest ex hsrc
        have hm1b := missingAppend_bounded m src dest ex hb
        have hm1src := missingAppend_srcSome m src dest ex hsrc
        have hfin : ∀ m₂ : Model, GrowStrict m.nextID src (m.missingAppend src dest ex) m₂ →
            IDsBounded m₂ → (m₂.getElemData src).isSome = true →
            (m.missingAppend src dest ex).nextID ≤ m₂.nextID →
            IDsBounded m₂ ∧ (m₂.getElemData src).isSome = true ∧ m.nextID ≤ m₂.nextID ∧
            ((m₂ = m ∧ (Except.ok false : Except GoPanic Bool) = Except.ok true) ∨
             ((Except.ok false : Except GoPanic Bool) = Except.ok false ∧
              ∃ Δ ids,
                m₂.rels = m.rels ++ (ex.dup src dest m.nextID) :: Δ ∧
                (∀ q ∈ Δ, m.nextID < q.id ∧ q.destination.isSome = true) ∧
                m₂.elemRelIDs src = m.elemRelIDs src ++ m.nextID :: ids ∧
                (∀ rid ∈ ids, m.nextID < rid))) := by
          intro m₂ hgs hb₂ hsrc₂ hle₂
          obtain ⟨⟨Δ, hrΔ, hqΔ⟩, ⟨ids, heΔ, hiΔ⟩⟩ := hgs
          refine ⟨hb₂, hsrc₂, ?_, Or.inr ⟨rfl, Δ, ids, ?_, hqΔ, ?_, hiΔ⟩⟩
          · rw [hm1next] at hle₂
            omega
          · rw [hrΔ, hm1rels, List.append_assoc]
            rfl
          · rw [heΔ, hm1elem, List.append_assoc]
            rfl
        have hstrict_of : ∀ (mA m₂ : Model) (d2 : Nat),
            m.nextID < mA.nextID →
            addMissingRelationships fuel mA src d2 ex = .ok m₂ →
            IDsBounded mA → (mA.getElemData src).isSome = true →
            GrowStrict m.nextID src mA m₂ ∧ IDsBounded m₂ ∧
              (m₂.getElemData src).isSome = true ∧ mA.nextID ≤ m₂.nextID := by
          intro mA m₂ d2 hlt hcall hbA hsrcA
          obtain ⟨hb₂, hsrc₂, hle₂, hbr⟩ := ih mA src d2 ex m₂ hbA hsrcA hcall
          refine ⟨?_, hb₂, hsrc₂, hle₂⟩
          rcases hbr with ⟨rfl, _⟩ | ⟨_, Δ, ids, hr, hq, he, hi⟩
          · exact GrowStrict_refl _ _ _
          · refine ⟨⟨ex.dup src d2 mA.nextID :: Δ, hr, ?_⟩,
              ⟨mA.nextID :: ids, he, ?_⟩⟩
            · intro q hq'
              rcases List.mem_cons.1 hq' with rfl | hq'
              · exact ⟨hlt, rfl⟩
              · exact ⟨Nat.lt_trans hlt (hq q hq').1, (hq q hq').2⟩
            · intro rid hrid
              rcases List.mem_cons.1 hrid with rfl | hrid
              · exact hlt
              · exact Nat.lt_trans hlt (hi rid hrid)
        cases hlook : (m.missingAppend src dest ex).lookupHolder dest with
        | none =>
          simp only [hlook] at h
          injection h with h
          subst h
          exact hfin _ (GrowStrict_refl _ _ _) hm1b hm1src (Nat.le_refl _)
        | some holder =>
          cases holder with
          | container c pS =>
            simp only [hlook] at h
            obtain ⟨hgs, hb₂, hsrc₂, hle₂⟩ :=
              hstrict_of (m.missingAppend src dest ex) m₁ pS.data.id
                (by rw [hm1next]; omega) h hm1b hm1src
            exact hfin m₁ hgs hb₂ hsrc₂ hle₂
          | component c pC pS =>
            simp only [hlook] at h
            cases hrec1 : addMissingRelationships fuel (m.missingAppend src dest ex) src
                pC.data.id ex with
            | error e =>
              rw [hrec1, except_bind_error] at h
              exact Except.noConfusion h
            | ok m2 =>
              rw [hrec1, except_bind_ok] at h
              obtain ⟨hgs1, hb2, hsrc2, hle2⟩ :=
                hstrict_of (m.missingAppend src dest ex) m2 pC.data.id
                  (by rw [hm1next]; omega) hrec1 hm1b hm1src
              obtain ⟨hgs2, hb₂, hsrc₂, hle₂⟩ :=
                hstrict_of m2 m₁ pS.data.id
                  (by rw [hm1next] at hle2; omega) h hb2 hsrc2
              exact hfin m₁ (GrowStrict_trans _ _ _ _ _ hgs1 hgs2) hb₂ hsrc₂
                (Nat.le_trans hle2 hle₂)
          | person p =>
            simp only [hlook] at h
            injection h with h
            subst h
            exact hfin _ (GrowStrict_refl _ _ _) hm1b hm1src (Nat.le_refl _)
          | softwareSystem s0 =>
            simp only [hlook] at h
            injection h with h
            subst h
            exact hfin _ (GrowStrict_refl _ _ _) hm1b hm1src (Nat.le_refl _)
          | deploymentNode d =>
            simp only [hlook] at h
            injection h with h
            subst h
            exact hfin _ (GrowStrict_refl _ _ _) hm1b hm1src (Nat.le_refl _)
          | containerInstance ci =>
            simp only [hlook] at h
            injection h with h
            subst h
            exact hfin _ (GrowStrict_refl _ _ _) hm1b hm1src (Nat.le_refl _)
          | infrastructureNode e =>
            simp only [hlook] at h
            injection h with h
            subst h
            exact hfin _ (GrowStrict_refl _ _ _) hm1b hm1src (Nat.le_refl _)

/-- General idempotence of the deduplicated append: once
`addMissingRelationships` has run for a (source, destination, description)
triple, running it again for the same triple changes nothing — the scan
finds the previously added (or previously existing) relationship and
skips. -/
theorem addMissing_idem (fuel fuel' : Nat) (m m₁ : Model) (src dest : Nat) (ex : Relationship)
    (hb : IDsBounded m) (hsrc : (m.getElemData src).isSome = true)
    (h : addMissingRelationships (fuel + 1) m src dest ex = .ok m₁) :
    addMissingRelationships (fuel' + 1) m₁ src dest ex = .ok m₁ := by
  obtain ⟨hb₁, hsrc₁, hle, hbr⟩ := addMissing_growth (fuel + 1) m src dest ex m₁ hb hsrc h
  rcases hbr with ⟨rfl, hscan⟩ | ⟨hscan, Δ, ids, hrels, hΔ, helem, hids⟩
  · exact addMissing_skip fuel' m₁ src dest ex hscan
  · apply addMissing_skip
    apply scanExisting_true_of
    · intro rid hrid q hq
      rw [helem] at hrid
      have hq' : (m.rels ++ (ex.dup src dest m.nextID) :: Δ).find? (fun x => x.id == rid) =
          some q := by
        rw [← hrels]
        exact hq
      rcases List.mem_append.1 hrid with hold | hnewlist
      · cases hfm : m.rels.find? (fun x => x.id == rid) with
        | some w =>
          rw [find?_append_some _ _ _ _ hfm] at hq'
          injection hq' with hq'
          subst hq'
          exact (scanExisting_false_facts m dest ex.description _ hscan rid hold w hfm).1
        | none =>
          rw [find?_append_none _ _ _ hfm] at hq'
          rcases List.mem_cons.1 (List.mem_of_find?_eq_some hq') with rfl | hΔq
          · rfl
          · exact (hΔ q hΔq).2
      · have hge : m.nextID ≤ rid := by
          rcases List.mem_cons.1 hnewlist with rfl | hi
          · exact Nat.le_refl _
          · exact Nat.le_of_lt (hids rid hi)
        rw [find?_append_none _ _ _ (rels_find?_none_of_bounded m rid hb hge)] at hq'
        rcases List.mem_cons.1 (List.mem_of_find?_eq_some hq') with rfl | hΔq
        · rfl
        · exact (hΔ q hΔq).2
    · refine ⟨m.nextID, ?_, ex.dup src dest m.nextID, ?_, rfl, rfl⟩
      · rw [helem]
        exact List.mem_append.2 (Or.inr (by simp))
      · show m₁.rels.find? (fun x => x.id == m.nextID) = some _
        rw [hrels, find?_append_none _ _ _
          (rels_find?_none_of_bounded m m.nextID hb (Nat.le_refl _))]
        exact List.find?_cons_of_pos _ (by simp [Relationship.dup])

/-- The C6 scenario: system `S1` (id 1) with container `Ctr1` (id 2) and
component `C1` (id 3), system `S2` (id 4), one relationship `C1 → S2`
with description `"d"`, inference flag set. -/
def mC6 : Model :=
  ⟨"", [],
    [⟨⟨1, "S1", "", "", [], []⟩, none,
      [⟨⟨2, "Ctr1", "", "", [], []⟩, [⟨⟨3, "C1", "", "", [], [20]⟩⟩]⟩]⟩,
     ⟨⟨4, "S2", "", "", [], []⟩, none, []⟩],
    [], true, [⟨20, 3, some 4, "", "d", "", [], none⟩], 21⟩

/-- The original relationship of the C6 scenario. -/
def r20C6 : Relationship := ⟨20, 3, some 4, "", "d", "", [], none⟩

/-- The C6 scenario after `Finalize`: exactly one derived relationship
`Ctr1 → S2` (id 21) and exactly one `S1 → S2` (id 22). -/
def mC6Final : Model :=
  ⟨"", [],
    [⟨⟨1, "S1", "", "", [], [22]⟩, none,
      [⟨⟨2, "Ctr1", "", "", [], [21]⟩, [⟨⟨3, "C1", "", "", [], [20]⟩⟩]⟩]⟩,
     ⟨⟨4, "S2", "", "", [], []⟩, none, []⟩],
    [], true,
    [⟨20, 3, some 4, "", "d", "", [], none⟩,
     ⟨21, 2, some 4, "", "d", "", [], none⟩,
     ⟨22, 1, some 4, "", "d", "", [], none⟩], 23⟩

/-- C6: ancestor-relationship propagation is deduplicated by (destination,
description).  Generally, re-running `addMissingRelationships` for a
(source, destination, description) triple that has already run is a no-op
(the duplicate check finds the earlier copy).  On the scenario of one
component relationship `C1 → S2` with the inference flag set, `Finalize`
adds exactly one `Ctr1 → S2` (relationship 21, the only entry of `Ctr1`'s
list) and exactly one `S1 → S2` (relationship 22), revisiting either
ancestor pair adds no second copy, and re-running the whole `Finalize`
pass is a fixpoint. -/
theorem claim6_implied_dedup :
    (∀ (fuel fuel' : Nat) (m m₁ : Model) (src dest : Nat) (ex : Relationship),
      IDsBounded m → (m.getElemData src).isSome = true →
      addMissingRelationships (fuel + 1) m src dest ex = .ok m₁ →
      addMissingRelationships (fuel' + 1) m₁ src dest ex = .ok m₁) ∧
    mC6.finalize = .ok mC6Final ∧
    mC6Final.systems.map (fun s => s.data.relationships) = [[22], []] ∧
    mC6Final.systems.map (fun s => s.containers.map (fun c => c.data.relationships)) =
      [[[21]], []] ∧
    mC6Final.getRel 21 = some ⟨21, 2, some 4, "", "d", "", [], none⟩ ∧
    mC6Final.getRel 22 = some ⟨22, 1, some 4, "", "d", "", [], none⟩ ∧
    addMissingRelationships 3 mC6Final 2 4 r20C6 = .ok mC6Final ∧
    addMissingRelationships 3 mC6Final 1 4 r20C6 = .ok mC6Final ∧
    mC6Final.finalize = .ok mC6Final := by
  refine ⟨fun fuel fuel' m m₁ src dest ex hb hsrc h =>
      addMissing_idem fuel fuel' m m₁ src dest ex hb hsrc h,
    by rfl, rfl, rfl, rfl, rfl, by rfl, by rfl, by rfl⟩

/-- The C6 scenario after the first ancestor append (`Ctr1 → S2` added,
`S1` not yet processed). -/
def mC6Mid : Model :=
  ⟨"", [],
    [⟨⟨1, "S1", "", "", [], []⟩, none,
      [⟨⟨2, "Ctr1", "", "", [], [21]⟩, [⟨⟨3, "C1", "", "", [], [20]⟩⟩]⟩]⟩,
     ⟨⟨4, "S2", "", "", [], []⟩, none, []⟩],
    [], true,
    [⟨20, 3, some 4, "", "d", "", [], none⟩,
     ⟨21, 2, some 4, "", "d", "", [], none⟩], 22⟩

/-- Witness for C6's general idempotence part: after the first
`Ctr1 → S2` append, running the same triple again changes nothing. -/
theorem claim6_witness :
    addMissingRelationships 3 mC6Mid 2 4 r20C6 = .ok mC6Mid :=
  claim6_implied_dedup.1 2 2 mC6 mC6Mid 2 4 r20C6 (by unfold IDsBounded; decide) (by rfl) (by rfl)

/-! ### C4 — uniqueness errors, one per duplicate occurrence -/

/-- Duplicate occurrences in a name list: every occurrence beyond the
first of each name counts once. -/
def dupCount (names : List String) : Nat := names.length - names.toFinset.card

/-- The shared top-level namespace: people then systems. -/
def topNames (m : Model) : List String :=
  m.people.map (fun p => p.data.name) ++ m.systems.map (fun s => s.data.name)

/-- Appending one name to the accumulated set. -/
theorem toFinset_append_singleton (known : List String) (n : String) :
    (known ++ [n]).toFinset = insert n known.toFinset := by
  simp [List.toFinset_append, Finset.union_comm, Finset.insert_eq]

/-- The scan emits exactly one error per duplicate occurrence (counted
against the initial name set as well). -/
theorem scanErrs_length :
    ∀ (items : List (Nat × String)) (known : List String),
      (scanErrs items known).length + (known ++ items.map Prod.snd).toFinset.card =
        items.length + known.toFinset.card := by
  intro items
  induction items with
  | nil => intro known; simp [scanErrs]
  | cons it rest ih =>
    intro known
    rw [scanErrs, List.map_cons]
    have hassoc : known ++ it.2 :: rest.map Prod.snd = (known ++ [it.2]) ++ rest.map Prod.snd := by
      simp
    rw [hassoc]
    have ih' := ih (known ++ [it.2])
    by_cases hm : it.2 ∈ known
    · have hc : known.contains it.2 = true := by simpa using hm
      have hcard : (known ++ [it.2]).toFinset.card = known.toFinset.card := by
        rw [toFinset_append_singleton, Finset.card_insert_of_mem (by simpa using hm)]
      simp only [hc, if_true, List.length_append, List.length_cons, List.length_nil]
      omega
    · have hc : known.contains it.2 = false := by simpa using hm
      have hcard : (known ++ [it.2]).toFinset.card = known.toFinset.card + 1 := by
        rw [toFinset_append_singleton, Finset.card_insert_of_not_mem (by simpa using hm)]
      simp only [hc, Bool.false_eq_true, if_false, List.length_append, List.length_cons,
        List.length_nil]
      omega

/-- The scan emits no error exactly when the scanned names are distinct
and disjoint from the initial set. -/
theorem scanErrs_eq_nil :
    ∀ (items : List (Nat × String)) (known : List String),
      scanErrs items known = [] ↔
        ((items.map Prod.snd).Nodup ∧ ∀ n ∈ items.map Prod.snd, n ∉ known) := by
  intro items
  induction items with
  | nil => intro known; simp [scanErrs]
  | cons it rest ih =>
    intro known
    rw [scanErrs]
    rw [List.append_eq_nil]
    constructor
    · rintro ⟨h1, h2⟩
      have hm : it.2 ∉ known := by
        intro hmem
        rw [if_pos (by simpa using hmem)] at h1
        cases h1
      obtain ⟨hnd, hdisj⟩ := (ih (known ++ [it.2])).1 h2
      refine ⟨List.nodup_cons.2 ⟨?_, hnd⟩, ?_⟩
      · intro hmem
        exact hdisj it.2 hmem (by simp)
      · intro n hn
        rcases List.mem_cons.1 hn with rfl | hn
        · exact hm
        · intro hk
          exact hdisj n hn (by simp [hk])
    · rintro ⟨hnd, hdisj⟩
      have hm : it.2 ∉ known := hdisj it.2 (by simp)
      obtain ⟨hh, hnd'⟩ := List.nodup_cons.1 hnd
      refine ⟨by rw [if_neg (by simpa using hm)], (ih (known ++ [it.2])).2 ⟨hnd', ?_⟩⟩
      intro n hn hk
      rcases List.mem_append.1 hk with hk | hk
      · exact hdisj n (by simp [hn]) hk
      · rw [List.mem_singleton] at hk
        subst hk
        exact hh hn

/-- Every scan error carries the duplicate-name message. -/
theorem scanErrs_messages :
    ∀ (items : List (Nat × String)) (known : List String),
      ∀ e ∈ scanErrs items known, e.message = nameInUse := by
  intro items
  induction items with
  | nil => intro known e he; cases he
  | cons it rest ih =>
    intro known e he
    rw [scanErrs] at he
    rcases List.mem_append.1 he with he | he
    · by_cases hc : known.contains it.2 = true
      · rw [if_pos hc, List.mem_singleton] at he
        subst he
        rfl
      · rw [if_neg hc] at he
        cases he
    · exact ih (known ++ [it.2]) e he

/-- Splitting a scan across an append. -/
theorem scanErrs_append :
    ∀ (a b : List (Nat × String)) (known : List String),
      scanErrs (a ++ b) known = scanErrs a known ++ scanErrs b (known ++ a.map Prod.snd) := by
  intro a
  induction a with
  | nil => intro b known; simp [scanErrs]
  | cons it rest ih =>
    intro b known
    rw [List.cons_append, scanErrs, scanErrs, ih b (known ++ [it.2])]
    simp [List.append_assoc]

/-- Length of the container scan: container duplicates plus component
duplicates. -/
theorem containersErrs_length :
    ∀ (cs : List Container) (known : List String),
      (containersErrs cs known).length =
        (scanErrs (cs.map fun c => (c.data.id, c.data.name)) known).length
          + (cs.map (fun c => (componentsErrs c.components).length)).sum := by
  intro cs
  induction cs with
  | nil => intro known; simp [containersErrs, scanErrs]
  | cons c rest ih =>
    intro known
    rw [containersErrs, List.map_cons, scanErrs]
    simp only [List.length_append, List.map_cons, List.sum_cons, ih (known ++ [c.data.name])]
    omega

/-- Length of the system scan: system-name duplicates (against the running
top-level set) plus each system's container-scope lengths. -/
theorem systemsErrs_length :
    ∀ (ss : List SoftwareSystem) (known : List String),
      (systemsErrs ss known).length =
        (scanErrs (ss.map fun s => (s.data.id, s.data.name)) known).length
          + (ss.map (fun s => (containersErrs s.containers []).length)).sum := by
  intro ss
  induction ss with
  | nil => intro known; simp [systemsErrs, scanErrs]
  | cons s rest ih =>
    intro known
    rw [systemsErrs, List.map_cons, scanErrs]
    simp only [List.length_append, List.map_cons, List.sum_cons, ih (known ++ [s.data.name])]
    omega

/-- Emptiness of the container scan. -/
theorem containersErrs_eq_nil :
    ∀ (cs : List Container) (known : List String),
      containersErrs cs known = [] ↔
        (scanErrs (cs.map fun c => (c.data.id, c.data.name)) known = [] ∧
         ∀ c ∈ cs, componentsErrs c.components = []) := by
  intro cs
  induction cs with
  | nil => intro known; simp [containersErrs, scanErrs]
  | cons c rest ih =>
    intro known
    rw [containersErrs, List.map_cons, scanErrs]
    simp only [List.append_eq_nil, ih (known ++ [c.data.name]), List.mem_cons]
    constructor
    · rintro ⟨⟨h1, h2⟩, h3, h4⟩
      exact ⟨⟨h1, h3⟩, fun x hx => by
        rcases hx with rfl | hx
        · exact h2
        · exact h4 x hx⟩
    · rintro ⟨⟨h1, h3⟩, h4⟩
      exact ⟨⟨h1, h4 c (Or.inl rfl)⟩, h3, fun x hx => h4 x (Or.inr hx)⟩

/-- Emptiness of the system scan. -/
theorem systemsErrs_eq_nil :
    ∀ (ss : List SoftwareSystem) (known : List String),
      systemsErrs ss known = [] ↔
        (scanErrs (ss.map fun s => (s.data.id, s.data.name)) known = [] ∧
         ∀ s ∈ ss, containersErrs s.containers [] = []) := by
  intro ss
  induction ss with
  | nil => intro known; simp [systemsErrs, scanErrs]
  | cons s rest ih =>
    intro known
    rw [systemsErrs, List.map_cons, scanErrs]
    simp only [List.append_eq_nil, ih (known ++ [s.data.name]), List.mem_cons]
    constructor
    · rintro ⟨⟨h1, h2⟩, h3, h4⟩
      exact ⟨⟨h1, h3⟩, fun x hx => by
        rcases hx with rfl | hx
        · exact h2
        · exact h4 x hx⟩
    · rintro ⟨⟨h1, h3⟩, h4⟩
      exact ⟨⟨h1, h4 s (Or.inl rfl)⟩, h3, fun x hx => h4 x (Or.inr hx)⟩

/-- A from-empty scan emits exactly `dupCount` errors. -/
theorem scanErrs_length_nil (items : List (Nat × String)) :
    (scanErrs items []).length = dupCount (items.map Prod.snd) := by
  have h := scanErrs_length items []
  rw [dupCount]
  simp only [List.nil_append, List.toFinset_nil, Finset.card_empty, Nat.add_zero] at h
  have hlen : (items.map Prod.snd).length = items.length := List.length_map _ _
  omega

/-- A from-empty scan emits no error exactly when the names are distinct. -/
theorem scanErrs_nil_iff (items : List (Nat × String)) :
    scanErrs items [] = [] ↔ (items.map Prod.snd).Nodup := by
  rw [scanErrs_eq_nil]
  simp

/-- A component scan emits no error exactly when the component names are
distinct. -/
theorem componentsErrs_nil_iff (comps : List Component) :
    componentsErrs comps = [] ↔ (comps.map fun cm => cm.data.name).Nodup := by
  have h1 : ((comps.map fun cm => (cm.data.id, cm.data.name)).map Prod.snd)
      = comps.map fun cm => cm.data.name := by
    simp [List.map_map, Function.comp_def]
  rw [componentsErrs, scanErrs_nil_iff, h1]

/-- A from-empty container scan emits no error exactly when the container
names are distinct and each container has distinct component names. -/
theorem containersErrs_nil_iff (cs : List Container) :
    containersErrs cs [] = [] ↔
      ((cs.map fun c => c.data.name).Nodup ∧
       ∀ c ∈ cs, (c.components.map fun cm => cm.data.name).Nodup) := by
  have h1 : ((cs.map fun c => (c.data.id, c.data.name)).map Prod.snd)
      = cs.map fun c => c.data.name := by
    simp [List.map_map, Function.comp_def]
  rw [containersErrs_eq_nil, scanErrs_nil_iff, h1]
  simp only [componentsErrs_nil_iff]

/-- A from-empty container scan emits container-name duplicates plus each
container's component-name duplicates. -/
theorem containersErrs_length_nil (cs : List Container) :
    (containersErrs cs []).length =
      dupCount (cs.map fun c => c.data.name)
        + (cs.map fun c =>
            dupCount (c.components.map fun cm => cm.data.name)).sum := by
  have h1 : ((cs.map fun c => (c.data.id, c.data.name)).map Prod.snd)
      = cs.map fun c => c.data.name := by
    simp [List.map_map, Function.comp_def]
  rw [containersErrs_length cs [], scanErrs_length_nil, h1]
  congr 1
  refine congrArg List.sum (List.map_congr_left fun c _ => ?_)
  have h2 : ((c.components.map fun cm => (cm.data.id, cm.data.name)).map Prod.snd)
      = c.components.map fun cm => cm.data.name := by
    simp [List.map_map, Function.comp_def]
  rw [componentsErrs, scanErrs_length_nil, h2]

/-- Every container-scan error carries the duplicate-name message. -/
theorem containersErrs_messages :
    ∀ (cs : List Container) (known : List String),
      ∀ e ∈ containersErrs cs known, e.message = nameInUse := by
  intro cs
  induction cs with
  | nil => intro known e he; cases he
  | cons c rest ih =>
    intro known e he
    simp only [containersErrs] at he
    rcases List.mem_append.1 he with he | he
    · rcases List.mem_append.1 he with he | he
      · by_cases hc : known.contains c.data.name = true
        · rw [if_pos hc, List.mem_singleton] at he
          subst he
          rfl
        · rw [if_neg hc] at he
          cases he
      · rw [componentsErrs] at he
        exact scanErrs_messages _ _ e he
    · exact ih _ e he

/-- Every system-scan error carries the duplicate-name message. -/
theorem systemsErrs_messages :
    ∀ (ss : List SoftwareSystem) (known : List String),
      ∀ e ∈ systemsErrs ss known, e.message = nameInUse := by
  intro ss
  induction ss with
  | nil => intro known e he; cases he
  | cons s rest ih =>
    intro known e he
    simp only [systemsErrs] at he
    rcases List.mem_append.1 he with he | he
    · rcases List.mem_append.1 he with he | he
      · by_cases hc : known.contains s.data.name = true
        · rw [if_pos hc, List.mem_singleton] at he
          subst he
          rfl
        · rw [if_neg hc] at he
          cases he
      · exact containersErrs_messages _ _ e he
    · exact ih _ e he

/-- C4: the uniqueness scan treats people and systems as one shared
top-level namespace, each system's containers and each container's
components as their own scopes; it emits exactly one error per duplicate
occurrence (`k` same-named entities in a scope yield `k - 1` errors,
counted by `dupCount`), keeps scanning past every violation, is empty
exactly when every scope is duplicate-free, is returned by `Validate` as
a prefix of the aggregate, and every such error carries the
name-already-in-use message. -/
theorem claim4_uniqueness_scoped_counting (m : Model) :
    (m.uniqErrors.length =
        dupCount (topNames m)
          + (m.systems.map (fun s =>
              dupCount (s.containers.map fun c => c.data.name)
                + (s.containers.map fun c =>
                    dupCount (c.components.map fun cm => cm.data.name)).sum)).sum)
    ∧ (m.uniqErrors = [] ↔
        ((topNames m).Nodup
          ∧ (∀ s ∈ m.systems, (s.containers.map fun c => c.data.name).Nodup)
          ∧ (∀ s ∈ m.systems, ∀ c ∈ s.containers,
              (c.components.map fun cm => cm.data.name).Nodup)))
    ∧ (∀ errs m', m.validate = .ok (errs, m') →
        ∃ rest, errs = m.uniqErrors ++ rest)
    ∧ (∀ e ∈ m.uniqErrors, e.message = nameInUse) := by
  have hP : ((m.people.map fun p => (p.data.id, p.data.name)).map Prod.snd)
      = m.people.map fun p => p.data.name := by
    simp [List.map_map, Function.comp_def]
  have hS : ((m.systems.map fun s => (s.data.id, s.data.name)).map Prod.snd)
      = m.systems.map fun s => s.data.name := by
    simp [List.map_map, Function.comp_def]
  refine ⟨?_, ?_, ?_, ?_⟩
  · have hSum : (m.systems.map fun s => (containersErrs s.containers []).length)
        = m.systems.map (fun s =>
            dupCount (s.containers.map fun c => c.data.name)
              + (s.containers.map fun c =>
                  dupCount (c.components.map fun cm => cm.data.name)).sum) := by
      apply List.map_congr_left
      intro s _
      exact containersErrs_length_nil s.containers
    rw [Model.uniqErrors, List.length_append, systemsErrs_length, hSum]
    have hA := scanErrs_length (m.people.map fun p => (p.data.id, p.data.name)) []
    simp only [List.nil_append, List.toFinset_nil, Finset.card_empty, Nat.add_zero,
      hP, List.length_map] at hA
    have hB := scanErrs_length (m.systems.map fun s => (s.data.id, s.data.name))
        (m.people.map fun p => p.data.name)
    simp only [hS, List.length_map] at hB
    rw [topNames, dupCount, List.length_append]
    simp only [List.length_map]
    omega
  · rw [Model.uniqErrors, List.append_eq_nil, scanErrs_nil_iff, hP,
      systemsErrs_eq_nil, scanErrs_eq_nil, hS, topNames]
    simp only [containersErrs_nil_iff, List.nodup_append]
    constructor
    · rintro ⟨hP', ⟨hS', hdisj⟩, hcs⟩
      exact ⟨⟨hP', hS', fun a haP haS => hdisj a haS haP⟩,
        fun s hs => (hcs s hs).1, fun s hs c hc => (hcs s hs).2 c hc⟩
    · rintro ⟨⟨hP', hS', hdisj⟩, hcn, hcm⟩
      exact ⟨hP', ⟨hS', fun n hnS hnP => hdisj hnP hnS⟩,
        fun s hs => ⟨hcn s hs, fun c hc => hcm s hs c hc⟩⟩
  · intro errs m' h
    rw [Model.validate] at h
    generalize hrp : m.resolvePass = rp at h
    cases rp with
    | error p => exact Except.noConfusion h
    | ok pr =>
      obtain ⟨re, m''⟩ := pr
      injection h with h1
      injection h1 with h2 h3
      exact ⟨re, h2.symm⟩
  · intro e he
    rw [Model.uniqErrors] at he
    rcases List.mem_append.1 he with he | he
    · exact scanErrs_messages _ _ e he
    · exact systemsErrs_messages _ _ e he

/-- Two distinct people sharing the name `"A"`. -/
def mC4w : Model :=
  ⟨"", [⟨⟨1, "A", "", "", [], []⟩, none⟩, ⟨⟨2, "A", "", "", [], []⟩, none⟩],
    [], [], false, [], 3⟩

/-- Witness for C4: on two same-named people the aggregate of `Validate`
starts with the uniqueness errors, every such error carries the
name-already-in-use message, and exactly one error is emitted for the one
duplicate occurrence. -/
theorem claim4_witness :
    (∃ rest, [(⟨2, nameInUse⟩ : VErr)] = mC4w.uniqErrors ++ rest)
      ∧ (∀ e ∈ mC4w.uniqErrors, e.message = nameInUse)
      ∧ mC4w.uniqErrors.length = 1 := by
  have h := claim4_uniqueness_scoped_counting mC4w
  exact ⟨h.2.2.1 [⟨2, nameInUse⟩] mC4w rfl, h.2.2.2, rfl⟩

/-! ### C1 — validation resolves every relationship destination -/

/-- `(pre ++ r :: rest)[pre.length]? = some r`. -/
theorem getElem?_append_cons {α : Type} (pre : List α) (r : α) (rest : List α) :
    (pre ++ r :: rest)[pre.length]? = some r := by
  induction pre with
  | nil => simp
  | cons a pre ih => simpa using ih

/-- Setting the element right after `pre` in `pre ++ r :: rest`. -/
theorem set_append_cons {α : Type} (pre : List α) (r x : α) (rest : List α) :
    (pre ++ r :: rest).set pre.length x = pre ++ x :: rest := by
  induction pre with
  | nil => rfl
  | cons a pre ih => simp

/-- The functional form of the resolution pass: resolve each relationship
in order with `resolveOne`, collecting the validation errors and the
updated relationships.  `resolvePass_spec` proves it equal to the
index-based `resolveIdxs` traversal. -/
def Model.resolveList (m : Model) :
    List Relationship → Except GoPanic (List VErr × List Relationship)
  | [] => .ok ([], [])
  | r :: rest =>
    match m.resolveOne r with
    | .error p => .error p
    | .ok (oe, r') =>
      match Model.resolveList m rest with
      | .error p => .error p
      | .ok (es, rest') => .ok (oe.toList ++ es, r' :: rest')

/-- `resolveOne` reads only the element trees, never the relationship
registry, so updating `rels` does not change it. -/
theorem Model.resolveOne_rels (m : Model) (l : List Relationship) (r : Relationship) :
    Model.resolveOne { m with rels := l } r = m.resolveOne r := rfl

/-- `resolveList` likewise ignores the relationship registry. -/
theorem Model.resolveList_rels (m : Model) (l : List Relationship) :
    ∀ post, Model.resolveList { m with rels := l } post = m.resolveList post := by
  intro post
  induction post with
  | nil => rfl
  | cons r rest ih =>
    simp only [Model.resolveList, Model.resolveOne_rels, ih]

/-- The index-based traversal over the suffix `post` of the registry agrees
with the functional `resolveList` on that suffix. -/
theorem Model.resolveIdxs_spec (post : List Relationship) :
    ∀ (pre : List Relationship) (m : Model) (errs0 : List VErr),
      m.rels = pre ++ post →
      Model.resolveIdxs m (List.range' pre.length post.length) errs0 =
        match m.resolveList post with
        | .error p => .error p
        | .ok (es, post') => .ok (errs0 ++ es, { m with rels := pre ++ post' }) := by
  induction post with
  | nil =>
    intro pre m errs0 hm
    rw [List.append_nil] at hm
    subst hm
    show Model.resolveIdxs m [] errs0 = _
    simp only [Model.resolveIdxs, Model.resolveList, List.append_nil]
  | cons r rest ih =>
    intro pre m errs0 hm
    simp only [List.length_cons, List.range'_succ, Model.resolveIdxs, Model.resolveList]
    have hget : m.rels[pre.length]? = some r := by
      rw [hm]
      exact getElem?_append_cons pre r rest
    simp only [hget]
    cases hro : m.resolveOne r with
    | error p => rfl
    | ok pr =>
      obtain ⟨oe, r'⟩ := pr
      have hset : m.rels.set pre.length r' = pre ++ r' :: rest := by
        rw [hm]
        exact set_append_cons pre r r' rest
      simp only [hset]
      have hlen : (pre ++ [r']).length = pre.length + 1 := by simp
      have ihh := ih (pre ++ [r']) { m with rels := pre ++ r' :: rest } (errs0 ++ oe.toList)
        (by simp)
      rw [hlen, Model.resolveList_rels] at ihh
      rw [ihh]
      cases hrl : m.resolveList rest with
      | error p => rfl
      | ok q =>
        obtain ⟨es, rest'⟩ := q
        simp [List.append_assoc]

/-- The resolution pass of `Validate` is the functional resolver applied to
the whole registry. -/
theorem Model.resolvePass_spec (m : Model) :
    m.resolvePass =
      match m.resolveList m.rels with
      | .error p => .error p
      | .ok (es, rels') => .ok (es, { m with rels := rels' }) := by
  have h := Model.resolveIdxs_spec m.rels [] m [] rfl
  rw [Model.resolvePass, List.range_eq_range']
  simp only [List.length_nil, List.nil_append] at h
  exact h

/-- Successful resolution of one relationship: either it was already
resolved and is untouched, or its source's registry entry and parent scope
were fetched and `findElement` either bound the destination or produced
the recorded error. -/
theorem Model.resolveOne_ok_cases (m : Model) (r : Relationship) (oe : Option VErr)
    (r' : Relationship) (h : m.resolveOne r = .ok (oe, r')) :
    (r.destination.isSome = true ∧ oe = none ∧ r' = r)
    ∨ (r.destination = none ∧ ∃ hold sc,
        m.lookupHolder r.sourceID = some hold
        ∧ hold.parentScope = .ok sc
        ∧ ((∃ eh, m.findElement sc r.destinationPath = .found eh
              ∧ oe = none ∧ r' = { r with destination := some eh.elemID })
           ∨ (∃ msg, m.findElement sc r.destinationPath = .fail msg
              ∧ oe = some ⟨r.id, msg⟩ ∧ r' = r))) := by
  rw [Model.resolveOne] at h
  by_cases hd : r.destination.isSome = true
  · rw [if_pos hd] at h
    injection h with h1
    injection h1 with h2 h3
    exact Or.inl ⟨hd, h2.symm, h3.symm⟩
  · rw [if_neg hd] at h
    have hdn : r.destination = none := by
      cases hdd : r.destination
      · rfl
      · rw [hdd] at hd
        simp at hd
    refine Or.inr ⟨hdn, ?_⟩
    cases hlk : m.lookupHolder r.sourceID with
    | none =>
      rw [hlk] at h
      exact Except.noConfusion h
    | some hold =>
      simp only [hlk] at h
      cases hps : hold.parentScope with
      | error p =>
        rw [hps, except_bind_error] at h
        exact Except.noConfusion h
      | ok sc =>
        rw [hps, except_bind_ok] at h
        cases hfe : m.findElement sc r.destinationPath with
        | found eh =>
          rw [hfe] at h
          injection h with h1
          injection h1 with h2 h3
          exact ⟨hold, sc, rfl, hps, Or.inl ⟨eh, hfe, h2.symm, h3.symm⟩⟩
        | fail msg =>
          rw [hfe] at h
          injection h with h1
          injection h1 with h2 h3
          exact ⟨hold, sc, rfl, hps, Or.inr ⟨msg, hfe, h2.symm, h3.symm⟩⟩
        | panicked =>
          rw [hfe] at h
          exact Except.noConfusion h

/-- Spec of the functional resolver: on success, the output list relates
pointwise to the input by `resolveOne` (with every per-relationship error
collected into the aggregate), and an empty aggregate means every output
relationship has a bound destination. -/
theorem Model.resolveList_spec (m : Model) :
    ∀ (l : List Relationship) (es : List VErr) (l' : List Relationship),
      m.resolveList l = .ok (es, l') →
      (es = [] → ∀ r' ∈ l', r'.destination.isSome = true)
      ∧ List.Forall₂ (fun r r' => ∃ oe,
          m.resolveOne r = .ok (oe, r') ∧ ∀ e ∈ oe.toList, e ∈ es) l l' := by
  intro l
  induction l with
  | nil =>
    intro es l' h
    simp only [Model.resolveList] at h
    injection h with h1
    injection h1 with h2 h3
    subst h2
    subst h3
    exact ⟨fun _ r hr => absurd hr (List.not_mem_nil r), List.Forall₂.nil⟩
  | cons r rest ihl =>
    intro es l' h
    simp only [Model.resolveList] at h
    cases hro : m.resolveOne r with
    | error p =>
      rw [hro] at h
      exact Except.noConfusion h
    | ok pr =>
      obtain ⟨oe, r'⟩ := pr
      simp only [hro] at h
      cases hrl : m.resolveList rest with
      | error p =>
        rw [hrl] at h
        exact Except.noConfusion h
      | ok q =>
        obtain ⟨es1, rest1⟩ := q
        simp only [hrl] at h
        injection h with h1
        injection h1 with h2 h3
        subst h2
        subst h3
        obtain ⟨hnil, hfa⟩ := ihl es1 rest1 hrl
        constructor
        · intro hes r0 hr0
          rw [List.append_eq_nil] at hes
          obtain ⟨hoe, hes1⟩ := hes
          rcases List.mem_cons.1 hr0 with rfl | hr0
          · have hoen : oe = none := by
              cases oe
              · rfl
              · simp at hoe
            rw [hoen] at hro
            rcases Model.resolveOne_ok_cases m r none r0 hro with
              ⟨hd, _, hrr⟩ | ⟨_, hold, sc, _, _, hcase⟩
            · rw [hrr]
              exact hd
            · rcases hcase with ⟨eh, _, _, hrr⟩ | ⟨msg, _, hoe2, _⟩
              · rw [hrr]
                rfl
              · exact absurd hoe2 (by simp)
          · exact hnil hes1 r0 hr0
        · refine List.Forall₂.cons ⟨oe, hro, fun e he => List.mem_append_left _ he⟩
            (hfa.imp ?_)
          rintro a b ⟨oe2, h1, h2⟩
          exact ⟨oe2, h1, fun e he => List.mem_append_right _ (h2 e he)⟩

/-- C1: when `Validate` succeeds, the registry keeps its length (no
relationship is dropped) and relates pointwise to the input registry: an
already-resolved relationship is untouched, and one whose destination was
an unresolved textual path has had its source's registry entry and
structural parent scope fetched and `findElement` applied to that scope
and the stored path — binding the destination to the found element on
success, or recording the resolver's error in the returned aggregate and
leaving the relationship unchanged on failure; if the aggregate is empty,
every relationship's destination is bound. -/
theorem claim1_validate_resolution (m : Model) (errs : List VErr) (m' : Model)
    (h : m.validate = .ok (errs, m')) :
    m'.rels.length = m.rels.length
    ∧ List.Forall₂ (fun r r' =>
        (r.destination.isSome = true → r' = r)
        ∧ (r.destination = none → ∃ hold sc,
            m.lookupHolder r.sourceID = some hold
            ∧ hold.parentScope = .ok sc
            ∧ ((∃ eh, m.findElement sc r.destinationPath = .found eh
                  ∧ r' = { r with destination := some eh.elemID })
               ∨ (∃ msg, m.findElement sc r.destinationPath = .fail msg
                  ∧ (⟨r.id, msg⟩ : VErr) ∈ errs ∧ r' = r))))
        m.rels m'.rels
    ∧ (errs = [] → ∀ r' ∈ m'.rels, r'.destination.isSome = true) := by
  rw [Model.validate] at h
  generalize hrp : m.resolvePass = rp at h
  cases rp with
  | error p => exact Except.noConfusion h
  | ok pr =>
    obtain ⟨re, m2⟩ := pr
    injection h with h1
    injection h1 with h2 h3
    subst h3
    rw [Model.resolvePass_spec] at hrp
    cases hrl : m.resolveList m.rels with
    | error p =>
      rw [hrl] at hrp
      exact Except.noConfusion hrp
    | ok q =>
      obtain ⟨es, rels'⟩ := q
      rw [hrl] at hrp
      injection hrp with hp1
      injection hp1 with hp2 hp3
      subst hp2
      obtain ⟨hnil, hfa⟩ := Model.resolveList_spec m m.rels es rels' hrl
      have hrels : m2.rels = rels' := by rw [← hp3]
      refine ⟨?_, ?_, ?_⟩
      · rw [hrels]
        exact hfa.length_eq.symm
      · rw [hrels]
        refine hfa.imp ?_
        rintro r r' ⟨oe, hro, hmem⟩
        constructor
        · intro hd
          rcases Model.resolveOne_ok_cases m r oe r' hro with
            ⟨_, _, hrr⟩ | ⟨hdn, _⟩
          · exact hrr
          · rw [hdn] at hd
            simp at hd
        · intro hdn
          rcases Model.resolveOne_ok_cases m r oe r' hro with
            ⟨hd, _, _⟩ | ⟨_, hold, sc, hlk, hps, hcase⟩
          · rw [hdn] at hd
            simp at hd
          · refine ⟨hold, sc, hlk, hps, ?_⟩
            rcases hcase with ⟨eh, hfe, hoe, hrr⟩ | ⟨msg, hfe, hoe, hrr⟩
            · exact Or.inl ⟨eh, hfe, hrr⟩
            · refine Or.inr ⟨msg, hfe, ?_, hrr⟩
              have hin : (⟨r.id, msg⟩ : VErr) ∈ es := by
                refine hmem _ ?_
                rw [hoe]
                simp
              rw [← h2]
              exact List.mem_append_right _ hin
      · intro hes
        rw [hrels]
        rw [← h2, List.append_eq_nil] at hes
        exact hnil hes.2

/-- A person `"P"` related to system `"S"` by a pending textual path. -/
def mC1w : Model :=
  ⟨"", [⟨⟨1, "P", "", "", [], [10]⟩, none⟩],
    [⟨⟨2, "S", "", "", [], []⟩, none, []⟩], [], false,
    [⟨10, 1, none, "S", "uses", "", [], none⟩], 11⟩

/-- The same model with the relationship's destination bound to `"S"`. -/
def mC1wRes : Model :=
  ⟨"", [⟨⟨1, "P", "", "", [], [10]⟩, none⟩],
    [⟨⟨2, "S", "", "", [], []⟩, none, []⟩], [], false,
    [⟨10, 1, some 2, "S", "uses", "", [], none⟩], 11⟩

/-- Witness for C1: validating `mC1w` succeeds with an empty aggregate,
keeps the single relationship, and leaves every destination bound. -/
theorem claim1_witness :
    mC1wRes.rels.length = mC1w.rels.length
      ∧ (∀ r ∈ mC1wRes.rels, r.destination.isSome = true) := by
  have h := claim1_validate_resolution mC1w [] mC1wRes rfl
  exact ⟨h.1, h.2.2 rfl⟩

end ModelExpr
